import Mathlib

/-!
Verification of the streaming read-pair deduplication engine (`src/lib.rs`).

The Rust source is shallowly embedded:
* byte strings (`&[u8]`, `String` sequence/quality data) become `List Nat`
  (each element a byte value);
* `f64` quantities (`max_error_frac`, quality scores) become exact rationals
  `ℚ`; the floating-point `floor() as usize` cast becomes `Int.toNat ∘ Int.floor`
  (Rust's `as usize` saturates negative values to 0, matching `Int.toNat`);
* `u64` rolling k-mer hashes become `Nat` reduced mod `4 ^ kmer_len`
  (for `kmer_len ≤ 32` this is exactly the `& mask` / wrapping-shift
  behaviour of the Rust code, since `2 ^ (2 * 32) = 2 ^ 64`);
* hash maps keyed by integers become association lists or functions, and
  fallible operations return `Option`.

Definitions keep the Rust names where possible.  Definitions whose name
starts with `spec` or that are described as spec-side re-state a sentence of
the natural-language specification and are compared against the embedded
code by theorem.
-/

namespace NaoDedup

/-- Parameters for deduplication matching (`DedupParams` in the source). -/
structure DedupParams where
  max_offset : Nat
  max_error_frac : ℚ

/-- Parameters for minimizer extraction (`MinimizerParams` in the source). -/
structure MinimizerParams where
  kmer_len : Nat
  window_len : Nat
  num_windows : Nat

/-- A read pair: identifier, two sequences, two quality strings, all byte
data as `List Nat` (`ReadPair` in the source). -/
structure ReadPair where
  read_id : String
  fwd_seq : List Nat
  rev_seq : List Nat
  fwd_qual : List Nat
  rev_qual : List Nat

/-- Exemplar snapshot: sequences only (`StoredExemplar` in the source). -/
structure StoredExemplar where
  fwd_seq : List Nat
  rev_seq : List Nat

/-- Per-cluster aggregate (`ClusterStats` in the source). -/
structure ClusterStats where
  best_read_idx : Nat
  best_score : ℚ
  count : Nat

/-! ## Similarity checking (`check_similarity` and its inner helper) -/

/-- The inner byte loop of `check_one_way`: walk the zipped overlap,
incrementing `mismatches` on a differing pair and returning `false` as soon
as `mismatches` exceeds `allowed`; `true` if the walk completes.  This is
the literal early-exit loop of the Rust source. -/
def scanMismatches : List (Nat × Nat) → Nat → Nat → Bool
  | [], _, _ => true
  | p :: rest, allowed, mismatches =>
    if p.1 ≠ p.2 then
      if allowed < mismatches + 1 then false
      else scanMismatches rest allowed (mismatches + 1)
    else scanMismatches rest allowed mismatches

/-- `check_one_way(seqa, seqb, off, max_error_frac)` from the source:
compare `seqa[off..off+overlap]` against `seqb[..overlap]` where
`overlap = min(seqa.len - off, seqb.len)`, with error budget
`⌊max_error_frac * overlap⌋` of which the offset consumes `off`. -/
def check_one_way (seqa seqb : List Nat) (off : Nat) (max_error_frac : ℚ) : Bool :=
  if seqa.length ≤ off then false
  else
    let overlap_len := min (seqa.length - off) seqb.length
    if overlap_len = 0 then false
    else
      let max_errors := (⌊max_error_frac * (overlap_len : ℚ)⌋).toNat
      if max_errors < off then false
      else
        let allowed_mismatches := max_errors - off
        let a_part := (seqa.drop off).take overlap_len
        let b_part := seqb.take overlap_len
        scanMismatches (a_part.zip b_part) allowed_mismatches 0

/-- `check_similarity` from the source: try every offset `0..=max_offset`,
first with `seq1` shifted left relative to `seq2`, then (for positive
offsets) the other direction; `true` on the first fit. -/
def check_similarity (seq1 seq2 : List Nat) (max_offset : Nat)
    (max_error_frac : ℚ) : Bool :=
  (List.range (max_offset + 1)).any fun offset =>
    check_one_way seq1 seq2 offset max_error_frac ||
      (decide (0 < offset) && check_one_way seq2 seq1 offset max_error_frac)

/-- `reads_are_similar` from the source: standard orientation
(fwd/fwd and rev/rev) or swapped orientation (fwd/rev and rev/fwd). -/
def reads_are_similar (rp : ReadPair) (exemplar : StoredExemplar)
    (dedup_params : DedupParams) : Bool :=
  (check_similarity rp.fwd_seq exemplar.fwd_seq dedup_params.max_offset
      dedup_params.max_error_frac &&
    check_similarity rp.rev_seq exemplar.rev_seq dedup_params.max_offset
      dedup_params.max_error_frac) ||
  (check_similarity rp.fwd_seq exemplar.rev_seq dedup_params.max_offset
      dedup_params.max_error_frac &&
    check_similarity rp.rev_seq exemplar.fwd_seq dedup_params.max_offset
      dedup_params.max_error_frac)

/-! Spec-side notions for the similarity contract: the overlap length at a
given shift, and the number of mismatching byte positions in that overlap. -/

/-- Length of the overlap when `a` is shifted left by `d` relative to `b`. -/
def overlapLen (a b : List Nat) (d : Nat) : Nat :=
  min (a.length - d) b.length

/-- Number of mismatching byte positions in the overlap of `a` (shifted left
by `d`) and `b`. -/
def overlapMismatches (a b : List Nat) (d : Nat) : Nat :=
  (((a.drop d).take (overlapLen a b d)).zip (b.take (overlapLen a b d))).countP
    fun p => decide (p.1 ≠ p.2)

lemma scanMismatches_eq_decide (ps : List (Nat × Nat)) (allowed : Nat) :
    ∀ m, m ≤ allowed →
      scanMismatches ps allowed m =
        decide (m + ps.countP (fun p => decide (p.1 ≠ p.2)) ≤ allowed) := by
  induction ps with
  | nil =>
    intro m hm
    simp [scanMismatches, hm]
  | cons p rest ih =>
    intro m hm
    by_cases hp : p.1 ≠ p.2
    · rw [scanMismatches, if_pos hp]
      rw [List.countP_cons_of_pos _ _ (by simpa using hp)]
      by_cases hcap : allowed < m + 1
      · rw [if_pos hcap]
        have hno : ¬ (m + (rest.countP (fun p => decide (p.1 ≠ p.2)) + 1) ≤ allowed) := by
          omega
        exact (decide_eq_false hno).symm
      · rw [if_neg hcap]
        rw [ih (m + 1) (by omega)]
        rw [show m + 1 + rest.countP (fun p => decide (p.1 ≠ p.2)) =
              m + (rest.countP (fun p => decide (p.1 ≠ p.2)) + 1) by omega]
    · rw [scanMismatches, if_neg hp]
      rw [List.countP_cons_of_neg _ _ (by simpa using hp)]
      exact ih m hm

/-- `check_one_way` succeeds exactly when the overlap is nonempty and the
mismatch count plus the offset fits in the budget `⌊ε·L⌋` (for `ε ≥ 0`). -/
lemma check_one_way_iff (a b : List Nat) (off : Nat) (ε : ℚ) (hε : 0 ≤ ε) :
    check_one_way a b off ε = true ↔
      0 < overlapLen a b off ∧
        (overlapMismatches a b off + off : ℤ) ≤ ⌊ε * (overlapLen a b off : ℚ)⌋ := by
  unfold check_one_way
  by_cases hoff : a.length ≤ off
  · have hL : overlapLen a b off = 0 := by
      unfold overlapLen
      have : a.length - off = 0 := Nat.sub_eq_zero_of_le hoff
      simp [this]
    simp [hoff, hL]
  · rw [if_neg hoff]
    have hLdef : overlapLen a b off = min (a.length - off) b.length := rfl
    by_cases hL0 : min (a.length - off) b.length = 0
    · simp only [hL0, if_pos rfl]
      simp [hLdef, hL0]
    · rw [if_neg hL0]
      set L := min (a.length - off) b.length with hLset
      have hLpos : 0 < L := Nat.pos_of_ne_zero hL0
      have hfloor0 : (0 : ℤ) ≤ ⌊ε * (L : ℚ)⌋ := by
        apply Int.floor_nonneg.mpr
        positivity
      have htoNat : ((⌊ε * (L : ℚ)⌋.toNat : ℤ)) = ⌊ε * (L : ℚ)⌋ :=
        Int.toNat_of_nonneg hfloor0
      set me := (⌊ε * (L : ℚ)⌋).toNat with hme
      by_cases hcap : me < off
      · rw [if_pos hcap]
        simp only [Bool.false_eq_true, false_iff]
        intro h
        have h2 := h.2
        rw [hLdef] at h2
        rw [← htoNat] at h2
        omega
      · rw [if_neg hcap]
        rw [scanMismatches_eq_decide _ _ 0 (Nat.zero_le _)]
        rw [Nat.zero_add]
        have hLol : overlapLen a b off = L := by rw [hLdef]
        unfold overlapMismatches
        rw [hLol]
        rw [decide_eq_true_eq]
        constructor
        · intro h
          refine ⟨hLpos, ?_⟩
          rw [← htoNat]
          omega
        · intro h
          have h2 := h.2
          rw [← htoNat] at h2
          omega

/-- Claim C1: for `ε ∈ [0,1]` and any offset cap `δ`, `check_similarity`
returns true iff some shift `d ≤ δ` in one of the two directions (only one
direction at `d = 0`) yields a positive-length overlap whose mismatch count
plus `d` fits within `⌊ε·L⌋`; in particular an empty overlap never counts
as similar. -/
theorem C1_check_similarity_characterization (A B : List Nat) (δ : Nat) (ε : ℚ)
    (h0 : 0 ≤ ε) (h1 : ε ≤ 1) :
    check_similarity A B δ ε = true ↔
      ∃ d, d ≤ δ ∧
        ((0 < overlapLen A B d ∧
            (overlapMismatches A B d + d : ℤ) ≤ ⌊ε * (overlapLen A B d : ℚ)⌋) ∨
         (0 < d ∧ 0 < overlapLen B A d ∧
            (overlapMismatches B A d + d : ℤ) ≤ ⌊ε * (overlapLen B A d : ℚ)⌋)) := by
  unfold check_similarity
  rw [List.any_eq_true]
  constructor
  · rintro ⟨d, hd, hp⟩
    rw [List.mem_range] at hd
    refine ⟨d, by omega, ?_⟩
    rw [Bool.or_eq_true] at hp
    rcases hp with hp | hp
    · exact Or.inl ((check_one_way_iff A B d ε h0).mp hp)
    · rw [Bool.and_eq_true, decide_eq_true_eq] at hp
      exact Or.inr ⟨hp.1, (check_one_way_iff B A d ε h0).mp hp.2⟩
  · rintro ⟨d, hd, hp⟩
    refine ⟨d, List.mem_range.mpr (by omega), ?_⟩
    rw [Bool.or_eq_true]
    rcases hp with hp | hp
    · exact Or.inl ((check_one_way_iff A B d ε h0).mpr hp)
    · refine Or.inr ?_
      rw [Bool.and_eq_true, decide_eq_true_eq]
      exact ⟨hp.1, (check_one_way_iff B A d ε h0).mpr ⟨hp.2.1, hp.2.2⟩⟩


/-- Witness for C1 at a concrete input. -/
theorem C1_check_similarity_characterization_witness :
    (0 : ℚ) ≤ 1/2 ∧ (1/2 : ℚ) ≤ 1 ∧
      (check_similarity [65] [65] 0 (1/2) = true ↔
        ∃ d, d ≤ 0 ∧
          ((0 < overlapLen [65] [65] d ∧
              (overlapMismatches [65] [65] d + d : ℤ) ≤
                ⌊(1/2 : ℚ) * (overlapLen [65] [65] d : ℚ)⌋) ∨
           (0 < d ∧ 0 < overlapLen [65] [65] d ∧
              (overlapMismatches [65] [65] d + d : ℤ) ≤
                ⌊(1/2 : ℚ) * (overlapLen [65] [65] d : ℚ)⌋))) :=
  ⟨by norm_num, by norm_num,
    C1_check_similarity_characterization [65] [65] 0 (1/2) (by norm_num) (by norm_num)⟩

lemma countP_zip_ne_comm : ∀ (x y : List Nat),
    (x.zip y).countP (fun p => decide (p.1 ≠ p.2)) =
      (y.zip x).countP (fun p => decide (p.1 ≠ p.2)) := by
  intro x
  induction x with
  | nil => intro y; simp
  | cons a xs ih =>
    intro y
    cases y with
    | nil => simp
    | cons b ys =>
      simp only [List.zip_cons_cons]
      rw [List.countP_cons, List.countP_cons, ih ys]
      congr 1
      by_cases hab : a = b
      · subst hab; simp
      · simp [hab, Ne.symm hab]

lemma check_one_way_zero_comm (a b : List Nat) (ε : ℚ) :
    check_one_way a b 0 ε = check_one_way b a 0 ε := by
  unfold check_one_way
  dsimp only
  by_cases ha : a.length = 0
  · by_cases hb : b.length = 0
    · rw [if_pos (show a.length ≤ 0 by omega), if_pos (show b.length ≤ 0 by omega)]
    · rw [if_pos (show a.length ≤ 0 by omega), if_neg (show ¬ b.length ≤ 0 by omega),
          if_pos (show min (b.length - 0) a.length = 0 by omega)]
  · by_cases hb : b.length = 0
    · rw [if_neg (show ¬ a.length ≤ 0 by omega), if_pos (show b.length ≤ 0 by omega),
          if_pos (show min (a.length - 0) b.length = 0 by omega)]
    · rw [if_neg (show ¬ a.length ≤ 0 by omega), if_neg (show ¬ b.length ≤ 0 by omega),
          if_neg (show ¬ min (a.length - 0) b.length = 0 by omega),
          if_neg (show ¬ min (b.length - 0) a.length = 0 by omega),
          if_neg (Nat.not_lt_zero _), if_neg (Nat.not_lt_zero _)]
      rw [scanMismatches_eq_decide _ _ 0 (Nat.zero_le _),
          scanMismatches_eq_decide _ _ 0 (Nat.zero_le _)]
      rw [show min (b.length - 0) a.length = min (a.length - 0) b.length by omega]
      rw [List.drop_zero, List.drop_zero]
      rw [countP_zip_ne_comm (a.take (min (a.length - 0) b.length))
            (b.take (min (a.length - 0) b.length))]

lemma check_similarity_arm_comm (a b : List Nat) (d : Nat) (ε : ℚ) :
    (check_one_way a b d ε || (decide (0 < d) && check_one_way b a d ε)) =
      (check_one_way b a d ε || (decide (0 < d) && check_one_way a b d ε)) := by
  cases d with
  | zero => simp [check_one_way_zero_comm a b ε]
  | succ n =>
    have hd : decide (0 < n + 1) = true := by simp
    rw [hd]
    simp only [Bool.true_and]
    exact Bool.or_comm _ _

lemma check_similarity_comm (a b : List Nat) (δ : Nat) (ε : ℚ) :
    check_similarity a b δ ε = check_similarity b a δ ε := by
  unfold check_similarity
  congr 1
  funext offset
  exact check_similarity_arm_comm a b offset ε

/-- Claim C3: paired-read similarity is symmetric — testing read pair `A`
against `B`'s stored sequences gives the same verdict as testing `B`
against `A`'s stored sequences, for every `(δ, ε)`. -/
theorem C3_reads_are_similar_symm (A B : ReadPair) (dp : DedupParams) :
    reads_are_similar A ⟨B.fwd_seq, B.rev_seq⟩ dp =
      reads_are_similar B ⟨A.fwd_seq, A.rev_seq⟩ dp := by
  unfold reads_are_similar
  dsimp only
  rw [check_similarity_comm A.fwd_seq B.fwd_seq,
      check_similarity_comm A.rev_seq B.rev_seq,
      check_similarity_comm A.fwd_seq B.rev_seq,
      check_similarity_comm A.rev_seq B.fwd_seq]
  rw [Bool.and_comm (check_similarity B.rev_seq A.fwd_seq dp.max_offset dp.max_error_frac)
        (check_similarity B.fwd_seq A.rev_seq dp.max_offset dp.max_error_frac)]

/-- Counterexample to claim C4 as stated: a read pair whose sequences are
empty is not similar to an exemplar holding its own (empty) sequences,
because an empty overlap is never similar. -/
theorem C4_counterexample_empty_read :
    reads_are_similar ⟨"r", [], [], [], []⟩ ⟨[], []⟩ ⟨0, 0⟩ = false := by
  decide

lemma countP_zip_self (s : List Nat) :
    (s.zip s).countP (fun p => decide (p.1 ≠ p.2)) = 0 := by
  induction s with
  | nil => simp
  | cons x xs ih =>
    simp only [List.zip_cons_cons]
    rw [List.countP_cons_of_neg _ _ (by simp)]
    exact ih

lemma check_similarity_self (s : List Nat) (hs : s ≠ []) (δ : Nat) (ε : ℚ) :
    check_similarity s s δ ε = true := by
  unfold check_similarity
  rw [List.any_eq_true]
  refine ⟨0, List.mem_range.mpr (by omega), ?_⟩
  rw [Bool.or_eq_true]
  left
  unfold check_one_way
  have hlen : 0 < s.length := List.length_pos.mpr hs
  rw [if_neg (by omega)]
  rw [Nat.sub_zero, min_self]
  rw [if_neg (by omega)]
  rw [if_neg (Nat.not_lt_zero _)]
  rw [List.drop_zero, List.take_length]
  rw [scanMismatches_eq_decide _ _ 0 (Nat.zero_le _)]
  rw [countP_zip_self]
  simp

/-- Claim C4, amended: reflexivity of paired similarity holds for every
read pair whose forward and reverse sequences are both nonempty (with any
`δ ≥ 0` and any `ε ≥ 0`); for empty sequences it fails, since an empty
overlap is never similar. -/
theorem C4_amended_reflexivity (rp : ReadPair) (δ : Nat) (ε : ℚ) (hε : 0 ≤ ε)
    (hf : rp.fwd_seq ≠ []) (hr : rp.rev_seq ≠ []) :
    reads_are_similar rp ⟨rp.fwd_seq, rp.rev_seq⟩ ⟨δ, ε⟩ = true := by
  unfold reads_are_similar
  dsimp only
  rw [check_similarity_self rp.fwd_seq hf δ ε, check_similarity_self rp.rev_seq hr δ ε]
  rfl

/-- Witness for the amended C4 at a concrete read pair. -/
theorem C4_amended_reflexivity_witness :
    (0 : ℚ) ≤ 0 ∧ ([65] : List Nat) ≠ [] ∧ ([67] : List Nat) ≠ [] ∧
      reads_are_similar ⟨"r", [65], [67], [40], [40]⟩ ⟨[65], [67]⟩ ⟨0, 0⟩ = true :=
  ⟨le_refl 0, by decide, by decide,
    C4_amended_reflexivity ⟨"r", [65], [67], [40], [40]⟩ 0 0 (le_refl 0) (by decide) (by decide)⟩

lemma check_one_way_mono (a b : List Nat) (off : Nat) (ε₁ ε₂ : ℚ) (h : ε₁ ≤ ε₂)
    (hs : check_one_way a b off ε₁ = true) : check_one_way a b off ε₂ = true := by
  unfold check_one_way at hs ⊢
  by_cases hoff : a.length ≤ off
  · rw [if_pos hoff] at hs; exact absurd hs (by simp)
  · rw [if_neg hoff] at hs ⊢
    by_cases hL : min (a.length - off) b.length = 0
    · rw [if_pos hL] at hs; exact absurd hs (by simp)
    · rw [if_neg hL] at hs ⊢
      set L := min (a.length - off) b.length with hLdef
      have hme : (⌊ε₁ * (L : ℚ)⌋).toNat ≤ (⌊ε₂ * (L : ℚ)⌋).toNat := by
        apply Int.toNat_le_toNat
        apply Int.floor_le_floor
        apply mul_le_mul_of_nonneg_right h (by positivity)
      by_cases hcap : (⌊ε₁ * (L : ℚ)⌋).toNat < off
      · rw [if_pos hcap] at hs; exact absurd hs (by simp)
      · rw [if_neg hcap] at hs
        rw [if_neg (by omega)]
        rw [scanMismatches_eq_decide _ _ 0 (Nat.zero_le _)] at hs ⊢
        rw [decide_eq_true_eq] at hs ⊢
        omega

lemma check_similarity_mono (a b : List Nat) (δ : Nat) (ε₁ ε₂ : ℚ) (h : ε₁ ≤ ε₂)
    (hs : check_similarity a b δ ε₁ = true) : check_similarity a b δ ε₂ = true := by
  unfold check_similarity at hs ⊢
  rw [List.any_eq_true] at hs ⊢
  obtain ⟨d, hd, hp⟩ := hs
  refine ⟨d, hd, ?_⟩
  rw [Bool.or_eq_true] at hp ⊢
  rcases hp with hp | hp
  · exact Or.inl (check_one_way_mono a b d ε₁ ε₂ h hp)
  · rw [Bool.and_eq_true] at hp
    refine Or.inr ?_
    rw [Bool.and_eq_true]
    exact ⟨hp.1, check_one_way_mono b a d ε₁ ε₂ h hp.2⟩

/-- Claim C5: similarity is monotone in the error fraction — for
`0 ≤ ε₁ ≤ ε₂ ≤ 1`, sequences similar under `check_similarity` at `ε₁` stay
similar at `ε₂`, and likewise read pairs under `reads_are_similar`. -/
theorem C5_similarity_monotone_in_error_frac (A B : List Nat) (rp : ReadPair)
    (ex : StoredExemplar) (δ : Nat) (ε₁ ε₂ : ℚ)
    (h0 : 0 ≤ ε₁) (h12 : ε₁ ≤ ε₂) (h1 : ε₂ ≤ 1) :
    (check_similarity A B δ ε₁ = true → check_similarity A B δ ε₂ = true) ∧
    (reads_are_similar rp ex ⟨δ, ε₁⟩ = true →
      reads_are_similar rp ex ⟨δ, ε₂⟩ = true) := by
  constructor
  · exact check_similarity_mono A B δ ε₁ ε₂ h12
  · intro hs
    unfold reads_are_similar at hs ⊢
    dsimp only at hs ⊢
    rw [Bool.or_eq_true, Bool.and_eq_true, Bool.and_eq_true] at hs ⊢
    rcases hs with ⟨hs1, hs2⟩ | ⟨hs1, hs2⟩
    · exact Or.inl ⟨check_similarity_mono _ _ _ _ _ h12 hs1,
        check_similarity_mono _ _ _ _ _ h12 hs2⟩
    · exact Or.inr ⟨check_similarity_mono _ _ _ _ _ h12 hs1,
        check_similarity_mono _ _ _ _ _ h12 hs2⟩

/-- Witness for C5 at concrete inputs. -/
theorem C5_similarity_monotone_witness :
    (0 : ℚ) ≤ 0 ∧ (0 : ℚ) ≤ 1/2 ∧ (1/2 : ℚ) ≤ 1 ∧
      ((check_similarity [65] [65] 1 0 = true → check_similarity [65] [65] 1 (1/2) = true) ∧
       (reads_are_similar ⟨"w", [65], [67], [], []⟩ ⟨[65], [67]⟩ ⟨1, 0⟩ = true →
         reads_are_similar ⟨"w", [65], [67], [], []⟩ ⟨[65], [67]⟩ ⟨1, 1/2⟩ = true)) :=
  ⟨le_refl 0, by norm_num, by norm_num,
    C5_similarity_monotone_in_error_frac [65] [65] ⟨"w", [65], [67], [], []⟩ ⟨[65], [67]⟩ 1 0 (1/2)
      (le_refl 0) (by norm_num) (by norm_num)⟩


/-! ## Minimizer extraction (`extract_minimizers` and the base encoder) -/

/-- `encode_base` from the source (backed by the 256-entry `ENCODE_LOOKUP`
table): A/a ↦ 0, C/c ↦ 1, G/g ↦ 2, T/t ↦ 3, every other byte (including N)
is invalid and yields `none` (the table's `u64::MAX` sentinel). -/
def encode_base (b : Nat) : Option Nat :=
  if b = 65 ∨ b = 97 then some 0
  else if b = 67 ∨ b = 99 then some 1
  else if b = 71 ∨ b = 103 then some 2
  else if b = 84 ∨ b = 116 then some 3
  else none

/-- The `u64::MAX` sentinel used for `min_hash`. -/
def U64MAX : Nat := 2 ^ 64 - 1

/-- One step of the inner window loop of `extract_minimizers`, acting on the
state `(min_hash, hash, valid_len)`.  On a valid base the rolling hash is
shifted left two bits, the new code is ORed in and the result masked to
`2·kmer_len` bits — all captured by `% 4 ^ kmer_len` (equal to the Rust
`& mask` for `kmer_len < 32` and to the wrapping `u64` shift for
`kmer_len = 32`); once the streak of valid bases reaches `kmer_len` the
hash becomes a minimizer candidate.  On an invalid base hash and streak
are reset. -/
def mzStep (kmer_len : Nat) (st : Nat × Nat × Nat) (b : Nat) : Nat × Nat × Nat :=
  match encode_base b with
  | some encoded =>
    let hash := (st.2.1 * 4 + encoded) % 4 ^ kmer_len
    let valid_len := st.2.2 + 1
    (if kmer_len ≤ valid_len then min st.1 hash else st.1, hash, valid_len)
  | none => (st.1, 0, 0)

/-- The `min_hash` accumulated by the window loop over one window. -/
def windowMin (win : List Nat) (kmer_len : Nat) : Nat :=
  (win.foldl (mzStep kmer_len) (U64MAX, 0, 0)).1

/-- The window loop of `extract_minimizers`: windows are adjacent starting
at offset 0; the loop breaks when a window would start past the end of the
sequence or is too short to hold a k-mer, and pushes a window's `min_hash`
only when it differs from the `u64::MAX` sentinel.  `fuel` counts the
remaining windows (`num_windows - i`). -/
def extractWindows (seq : List Nat) (p : MinimizerParams) : Nat → Nat → List Nat
  | 0, _ => []
  | fuel + 1, i =>
    let window_start := i * p.window_len
    if seq.length ≤ window_start then []
    else
      let window_end := min (window_start + p.window_len) seq.length
      if window_end - window_start < p.kmer_len then []
      else
        let mh := windowMin ((seq.drop window_start).take p.window_len) p.kmer_len
        (if mh = U64MAX then [] else [mh]) ++ extractWindows seq p fuel (i + 1)

/-- `extract_minimizers` from the source. -/
def extract_minimizers (seq : List Nat) (p : MinimizerParams) : List Nat :=
  if seq.length < p.kmer_len then []
  else extractWindows seq p p.num_windows 0

/-! Spec-side definitions for C6: the candidate k-mer hashes of a window are
the 2-bit packings of exactly those k-mers that consist entirely of valid
bases; a window's minimizer should be their numerical minimum. -/

/-- A byte is a valid base iff the encoder accepts it. -/
def isValidBase (b : Nat) : Bool :=
  (encode_base b).isSome

/-- The 2-bit code of a base (0 for invalid bytes; only applied to valid
ones). -/
def encVal (b : Nat) : Nat :=
  (encode_base b).getD 0

/-- The 2-bit packing of a k-mer: big-endian accumulation of 2-bit codes. -/
def vpack (l : List Nat) : Nat :=
  l.foldl (fun a b => a * 4 + encVal b) 0

/-- Spec side: the packed values of exactly those k-mers of `win` that
consist entirely of valid bases, enumerated by start position. -/
def validKmerPacks (win : List Nat) (kmer_len : Nat) : List Nat :=
  (List.range (win.length + 1 - kmer_len)).filterMap fun j =>
    if ((win.drop j).take kmer_len).all isValidBase then
      some (vpack ((win.drop j).take kmer_len))
    else none

/-- The maximal all-valid suffix of a list: what the `valid_len` streak
counter and rolling hash of the window loop are tracking. -/
def validSuffix (l : List Nat) : List Nat :=
  (l.reverse.takeWhile isValidBase).reverse

lemma vpack_append_singleton (l : List Nat) (b : Nat) :
    vpack (l ++ [b]) = vpack l * 4 + encVal b := by
  unfold vpack
  rw [List.foldl_append]
  rfl

lemma vpack_lt (l : List Nat) : vpack l < 4 ^ l.length := by
  induction l using List.reverseRecOn with
  | nil => simp [vpack]
  | append_singleton xs b ih =>
    rw [vpack_append_singleton, List.length_append, List.length_singleton]
    have hb : encVal b < 4 := by
      unfold encVal encode_base
      by_cases h1 : b = 65 ∨ b = 97
      · simp [h1]
      · by_cases h2 : b = 67 ∨ b = 99
        · simp [h1, h2]
        · by_cases h3 : b = 71 ∨ b = 103
          · simp [h1, h2, h3]
          · by_cases h4 : b = 84 ∨ b = 116
            · simp [h1, h2, h3, h4]
            · simp [h1, h2, h3, h4]
    calc vpack xs * 4 + encVal b < vpack xs * 4 + 4 := by omega
      _ = (vpack xs + 1) * 4 := by ring
      _ ≤ 4 ^ xs.length * 4 := by
          have : vpack xs + 1 ≤ 4 ^ xs.length := ih
          omega
      _ = 4 ^ (xs.length + 1) := by ring

lemma vpack_append (xs ys : List Nat) :
    vpack (xs ++ ys) = vpack xs * 4 ^ ys.length + vpack ys := by
  induction ys using List.reverseRecOn with
  | nil => simp [vpack]
  | append_singleton zs b ih =>
    rw [← List.append_assoc, vpack_append_singleton, ih, vpack_append_singleton,
        List.length_append, List.length_singleton]
    ring

/-- Reducing a packing mod `4 ^ k` keeps exactly the last `k` bases. -/
lemma vpack_mod_lastN (l : List Nat) (k : Nat) (hk : k ≤ l.length) :
    vpack l % 4 ^ k = vpack (l.drop (l.length - k)) := by
  conv_lhs => rw [← List.take_append_drop (l.length - k) l]
  rw [vpack_append]
  have hlen : (l.drop (l.length - k)).length = k := by
    rw [List.length_drop]
    omega
  rw [hlen]
  rw [Nat.add_comm, Nat.add_mul_mod_self_right]
  have hv := vpack_lt (l.drop (l.length - k))
  rw [hlen] at hv
  exact Nat.mod_eq_of_lt hv

lemma validSuffix_nil : validSuffix [] = [] := rfl

lemma validSuffix_append_valid (l : List Nat) (b : Nat) (hb : isValidBase b = true) :
    validSuffix (l ++ [b]) = validSuffix l ++ [b] := by
  unfold validSuffix
  rw [List.reverse_append, List.reverse_singleton]
  rw [List.singleton_append, List.takeWhile_cons_of_pos hb]
  rw [List.reverse_cons]

lemma validSuffix_append_invalid (l : List Nat) (b : Nat) (hb : isValidBase b = false) :
    validSuffix (l ++ [b]) = [] := by
  unfold validSuffix
  rw [List.reverse_append, List.reverse_singleton]
  rw [List.singleton_append, List.takeWhile_cons_of_neg (by simp [hb])]
  rfl

lemma validSuffix_length_le (l : List Nat) : (validSuffix l).length ≤ l.length := by
  unfold validSuffix
  rw [List.length_reverse]
  calc (l.reverse.takeWhile isValidBase).length ≤ l.reverse.length :=
        (List.takeWhile_sublist _).length_le
    _ = l.length := List.length_reverse l

/-- Within a list, taking `n ≤ (takeWhile p).length` elements agrees with
taking them from the `takeWhile` part. -/
lemma take_eq_take_takeWhile (p : Nat → Bool) :
    ∀ (t : List Nat) (n : Nat), n ≤ (t.takeWhile p).length →
      t.take n = (t.takeWhile p).take n := by
  intro t
  induction t with
  | nil => intro n _; rfl
  | cons x xs ih =>
    intro n hn
    by_cases hx : p x = true
    · rw [List.takeWhile_cons_of_pos hx] at hn ⊢
      cases n with
      | zero => rfl
      | succ m =>
        rw [List.take_succ_cons, List.take_succ_cons]
        rw [ih m (by simpa using hn)]
    · rw [List.takeWhile_cons_of_neg (by simp [hx])] at hn
      have hn0 : n = 0 := by simpa using hn
      subst hn0
      rfl

/-- A prefix of length `n` is all-`p` iff `takeWhile p` has length ≥ `n`
(for `n` within the list). -/
lemma take_all_iff_takeWhile_length (p : Nat → Bool) :
    ∀ (t : List Nat) (n : Nat), n ≤ t.length →
      ((t.take n).all p = true ↔ n ≤ (t.takeWhile p).length) := by
  intro t
  induction t with
  | nil =>
    intro n hn
    have hn0 : n = 0 := by simpa using hn
    subst hn0
    simp
  | cons x xs ih =>
    intro n hn
    cases n with
    | zero => simp
    | succ m =>
      rw [List.take_succ_cons]
      by_cases hx : p x = true
      · rw [List.takeWhile_cons_of_pos hx]
        rw [List.all_cons, hx, Bool.true_and, List.length_cons]
        rw [ih m (by simpa using hn)]
        omega
      · rw [List.takeWhile_cons_of_neg (by simp [hx])]
        rw [List.all_cons]
        constructor
        · intro h
          rw [Bool.and_eq_true] at h
          exact absurd h.1 (by simp [hx])
        · intro h
          simp at h

/-- The last `n` bytes of a list are all valid iff the valid-streak suffix
has length at least `n` (for `n` within the list). -/
lemma lastN_all_valid_iff (l : List Nat) (n : Nat) (hn : n ≤ l.length) :
    ((l.drop (l.length - n)).all isValidBase = true) ↔ n ≤ (validSuffix l).length := by
  have hrev : (l.drop (l.length - n)).all isValidBase =
      (l.reverse.take n).all isValidBase := by
    rw [← List.all_reverse, List.reverse_drop]
    rw [show l.length - (l.length - n) = n by omega]
  rw [hrev]
  unfold validSuffix
  rw [List.length_reverse]
  exact take_all_iff_takeWhile_length isValidBase l.reverse n
    (by rw [List.length_reverse]; exact hn)

/-- Appending one byte to a window adds (at most) one candidate k-mer: the
one made of the window's last `k` bytes, provided they are all valid. -/
lemma validKmerPacks_append (win : List Nat) (b : Nat) (k : Nat) (hk : 1 ≤ k) :
    validKmerPacks (win ++ [b]) k =
      validKmerPacks win k ++
        (if k ≤ win.length + 1 then
          (if ((win ++ [b]).drop (win.length + 1 - k)).all isValidBase then
            [vpack ((win ++ [b]).drop (win.length + 1 - k))] else [])
        else []) := by
  by_cases hkle : k ≤ win.length + 1
  · rw [if_pos hkle]
    unfold validKmerPacks
    rw [List.length_append, List.length_singleton]
    rw [show win.length + 1 + 1 - k = (win.length + 1 - k) + 1 by omega]
    rw [List.range_succ, List.filterMap_append]
    congr 1
    · apply List.filterMap_congr
      intro j hj
      rw [List.mem_range] at hj
      have hkmer : ((win ++ [b]).drop j).take k = (win.drop j).take k := by
        rw [List.drop_append_of_le_length (by omega)]
        rw [List.take_append_of_le_length (by rw [List.length_drop]; omega)]
      rw [hkmer]
    · have htake : ((win ++ [b]).drop (win.length + 1 - k)).take k =
          (win ++ [b]).drop (win.length + 1 - k) := by
        apply List.take_of_length_le
        rw [List.length_drop, List.length_append, List.length_singleton]
        omega
      by_cases hall : ((win ++ [b]).drop (win.length + 1 - k)).all isValidBase = true
      · rw [if_pos hall]
        rw [List.filterMap_cons, htake, if_pos hall, List.filterMap_nil]
      · rw [if_neg hall]
        rw [List.filterMap_cons, htake, if_neg hall, List.filterMap_nil]
  · rw [if_neg hkle, List.append_nil]
    unfold validKmerPacks
    rw [List.length_append, List.length_singleton]
    rw [show win.length + 1 + 1 - k = 0 by omega, show win.length + 1 - k = 0 by omega]
    rfl

/-- Every list splits into an (invalid-ended) front part and its maximal
valid suffix. -/
lemma validSuffix_decomposition (l : List Nat) :
    l = (l.reverse.dropWhile isValidBase).reverse ++ validSuffix l := by
  have hsplit : l.reverse.takeWhile isValidBase ++ l.reverse.dropWhile isValidBase =
      l.reverse := List.takeWhile_append_dropWhile isValidBase l.reverse
  calc l = l.reverse.reverse := (List.reverse_reverse l).symm
    _ = (l.reverse.takeWhile isValidBase ++ l.reverse.dropWhile isValidBase).reverse := by
        rw [hsplit]
    _ = (l.reverse.dropWhile isValidBase).reverse ++
          (l.reverse.takeWhile isValidBase).reverse := by rw [List.reverse_append]
    _ = (l.reverse.dropWhile isValidBase).reverse ++ validSuffix l := rfl

/-- Taking the last `k` elements of `pre ++ suf` stays inside `suf` when
`k ≤ suf.length`. -/
lemma lastN_of_suffix_eq (pre suf : List Nat) (k : Nat) (hks : k ≤ suf.length) :
    (pre ++ suf).drop ((pre ++ suf).length - k) = suf.drop (suf.length - k) := by
  rw [List.length_append]
  rw [show pre.length + suf.length - k = pre.length + (suf.length - k) by omega]
  exact List.drop_append (suf.length - k)

/-- The invariant of the window loop (for `1 ≤ kmer_len`): after scanning
`win`, `min_hash` is the fold-min of the packed valid k-mers of `win`,
`hash` is the packing of the current valid streak reduced mod `4^k`, and
`valid_len` is the streak's length. -/
lemma foldl_mzStep_spec (k : Nat) (hk : 1 ≤ k) (win : List Nat) :
    win.foldl (mzStep k) (U64MAX, 0, 0) =
      ((validKmerPacks win k).foldl min U64MAX,
        vpack (validSuffix win) % 4 ^ k,
        (validSuffix win).length) := by
  induction win using List.reverseRecOn with
  | nil =>
    unfold validKmerPacks
    rw [show ([] : List Nat).length + 1 - k = 0 by simp; omega]
    simp [validSuffix_nil, vpack]
  | append_singleton xs b ih =>
    rw [List.foldl_append, List.foldl_cons, List.foldl_nil, ih]
    cases hb : encode_base b with
    | none =>
      have hvb : isValidBase b = false := by unfold isValidBase; rw [hb]; rfl
      have hvs : validSuffix (xs ++ [b]) = [] := validSuffix_append_invalid xs b hvb
      rw [hvs]
      rw [validKmerPacks_append xs b k hk]
      have hnocand : (if k ≤ xs.length + 1 then
          (if ((xs ++ [b]).drop (xs.length + 1 - k)).all isValidBase then
            [vpack ((xs ++ [b]).drop (xs.length + 1 - k))] else [])
        else []) = [] := by
        by_cases hkle : k ≤ xs.length + 1
        · rw [if_pos hkle]
          have hmem : b ∈ (xs ++ [b]).drop (xs.length + 1 - k) := by
            rw [List.drop_append_of_le_length (by omega)]
            exact List.mem_append_right _ (List.mem_singleton.mpr rfl)
          by_cases hall : ((xs ++ [b]).drop (xs.length + 1 - k)).all isValidBase = true
          · exfalso
            have hbv := List.all_eq_true.mp hall b hmem
            rw [hvb] at hbv
            exact absurd hbv (by simp)
          · rw [if_neg hall]
        · rw [if_neg hkle]
      rw [hnocand, List.append_nil]
      unfold mzStep
      rw [hb]
      simp [vpack]
    | some e =>
      have hvb : isValidBase b = true := by unfold isValidBase; rw [hb]; rfl
      have henc : encVal b = e := by unfold encVal; rw [hb]; rfl
      have hvs : validSuffix (xs ++ [b]) = validSuffix xs ++ [b] :=
        validSuffix_append_valid xs b hvb
      have hsufle : (validSuffix xs).length ≤ xs.length := validSuffix_length_le xs
      rw [hvs]
      rw [validKmerPacks_append xs b k hk]
      unfold mzStep
      rw [hb]
      dsimp only
      have hhash : (vpack (validSuffix xs) % 4 ^ k * 4 + e) % 4 ^ k =
          vpack (validSuffix xs ++ [b]) % 4 ^ k := by
        rw [vpack_append_singleton, henc]
        exact ((Nat.mod_modEq (vpack (validSuffix xs)) (4 ^ k)).mul_right 4).add_right e
      rw [hhash]
      rw [List.length_append, List.length_singleton]
      by_cases hcand : k ≤ (validSuffix xs).length + 1
      · -- a new candidate appears, equal to the updated hash
        rw [if_pos hcand]
        have hkle : k ≤ xs.length + 1 := by omega
        have hall : ((xs ++ [b]).drop (xs.length + 1 - k)).all isValidBase = true := by
          have hiff := lastN_all_valid_iff (xs ++ [b]) k
            (by rw [List.length_append, List.length_singleton]; omega)
          rw [List.length_append, List.length_singleton] at hiff
          apply hiff.mpr
          rw [hvs, List.length_append, List.length_singleton]
          omega
        have hkmer : (xs ++ [b]).drop (xs.length + 1 - k) =
            (validSuffix xs ++ [b]).drop ((validSuffix xs ++ [b]).length - k) := by
          have hdec := validSuffix_decomposition (xs ++ [b])
          rw [hvs] at hdec
          have hks : k ≤ (validSuffix xs ++ [b]).length := by
            rw [List.length_append, List.length_singleton]; omega
          calc (xs ++ [b]).drop (xs.length + 1 - k)
              = (xs ++ [b]).drop ((xs ++ [b]).length - k) := by
                rw [List.length_append, List.length_singleton]
            _ = (((xs ++ [b]).reverse.dropWhile isValidBase).reverse ++
                  (validSuffix xs ++ [b])).drop
                  ((((xs ++ [b]).reverse.dropWhile isValidBase).reverse ++
                    (validSuffix xs ++ [b])).length - k) := by
                conv_lhs => rw [hdec]
            _ = (validSuffix xs ++ [b]).drop ((validSuffix xs ++ [b]).length - k) :=
                lastN_of_suffix_eq _ _ k hks
        have hpackkmer : vpack ((xs ++ [b]).drop (xs.length + 1 - k)) =
            vpack (validSuffix xs ++ [b]) % 4 ^ k := by
          rw [hkmer]
          exact (vpack_mod_lastN (validSuffix xs ++ [b]) k
            (by rw [List.length_append, List.length_singleton]; omega)).symm
        rw [if_pos hkle, if_pos hall]
        rw [List.foldl_append, List.foldl_cons, List.foldl_nil]
        rw [hpackkmer]
      · -- no new candidate, and the streak is still too short
        rw [if_neg hcand]
        have hnocand : (if k ≤ xs.length + 1 then
            (if ((xs ++ [b]).drop (xs.length + 1 - k)).all isValidBase then
              [vpack ((xs ++ [b]).drop (xs.length + 1 - k))] else [])
          else []) = [] := by
          by_cases hkle : k ≤ xs.length + 1
          · rw [if_pos hkle]
            have hiff := lastN_all_valid_iff (xs ++ [b]) k
              (by rw [List.length_append, List.length_singleton]; omega)
            rw [List.length_append, List.length_singleton] at hiff
            by_cases hall : ((xs ++ [b]).drop (xs.length + 1 - k)).all isValidBase = true
            · exfalso
              have hge := hiff.mp hall
              rw [hvs, List.length_append, List.length_singleton] at hge
              omega
            · rw [if_neg hall]
          · rw [if_neg hkle]
        rw [hnocand, List.append_nil]

lemma foldl_min_le_init (l : List Nat) : ∀ a, l.foldl min a ≤ a := by
  induction l with
  | nil => intro a; exact le_refl a
  | cons x xs ih =>
    intro a
    rw [List.foldl_cons]
    exact le_trans (ih (min a x)) (min_le_left a x)

lemma foldl_min_choice (l : List Nat) : ∀ a, l.foldl min a = a ∨ l.foldl min a ∈ l := by
  induction l with
  | nil => intro a; exact Or.inl rfl
  | cons x xs ih =>
    intro a
    rw [List.foldl_cons]
    rcases ih (min a x) with h | h
    · rcases min_choice a x with hm | hm
      · exact Or.inl (h.trans hm)
      · refine Or.inr ?_
        rw [h, hm]
        exact List.mem_cons_self x xs
    · exact Or.inr (List.mem_cons_of_mem x h)

lemma foldl_min_le_mem (l : List Nat) : ∀ a, ∀ y ∈ l, l.foldl min a ≤ y := by
  induction l with
  | nil => intro a y hy; exact absurd hy (List.not_mem_nil y)
  | cons x xs ih =>
    intro a y hy
    rw [List.foldl_cons]
    rcases List.mem_cons.mp hy with h | h
    · subst h
      exact le_trans (foldl_min_le_init xs (min a y)) (min_le_right a y)
    · exact ih (min a x) y h

/-- For `kmer_len = 0` the rolling hash is always 0 and every position is a
candidate, so the window minimum is either the untouched sentinel or 0. -/
lemma windowMin_zero_cases (win : List Nat) :
    windowMin win 0 = U64MAX ∨ windowMin win 0 = 0 := by
  unfold windowMin
  suffices h : ∀ st : Nat × Nat × Nat, st.1 = U64MAX ∨ st.1 = 0 →
      (win.foldl (mzStep 0) st).1 = U64MAX ∨ (win.foldl (mzStep 0) st).1 = 0 by
    exact h (U64MAX, 0, 0) (Or.inl rfl)
  induction win with
  | nil => intro st hst; exact hst
  | cons x xs ih =>
    intro st hst
    rw [List.foldl_cons]
    apply ih
    unfold mzStep
    cases hx : encode_base x with
    | none => exact hst
    | some e =>
      dsimp only
      rw [if_pos (Nat.zero_le _)]
      right
      have : (st.2.1 * 4 + e) % 4 ^ 0 = 0 := by
        rw [pow_zero, Nat.mod_one]
      rw [this]
      exact min_eq_right (Nat.zero_le _)

lemma validKmerPacks_zero_mem (win : List Nat) : (0 : Nat) ∈ validKmerPacks win 0 := by
  unfold validKmerPacks
  rw [List.mem_filterMap]
  refine ⟨0, ?_, ?_⟩
  · rw [List.mem_range]; omega
  · rw [List.take_zero]
    simp [vpack]

lemma validKmerPacks_zero_all (win : List Nat) :
    ∀ y ∈ validKmerPacks win 0, y = 0 := by
  intro y hy
  unfold validKmerPacks at hy
  rw [List.mem_filterMap] at hy
  obtain ⟨j, _, hj⟩ := hy
  rw [List.take_zero] at hj
  simp [vpack] at hj
  omega

/-- Any window minimum that differs from the sentinel is the numerical
minimum of the packed valid k-mers of the window. -/
lemma windowMin_spec (win : List Nat) (k : Nat) (hne : windowMin win k ≠ U64MAX) :
    windowMin win k ∈ validKmerPacks win k ∧
      ∀ y ∈ validKmerPacks win k, windowMin win k ≤ y := by
  by_cases hk : 1 ≤ k
  · have hfold : windowMin win k = (validKmerPacks win k).foldl min U64MAX := by
      unfold windowMin
      rw [foldl_mzStep_spec k hk win]
    rw [hfold] at hne ⊢
    constructor
    · rcases foldl_min_choice (validKmerPacks win k) U64MAX with h | h
      · exact absurd h hne
      · exact h
    · exact foldl_min_le_mem (validKmerPacks win k) U64MAX
  · have hk0 : k = 0 := by omega
    subst hk0
    rcases windowMin_zero_cases win with h | h
    · exact absurd h hne
    · rw [h]
      exact ⟨validKmerPacks_zero_mem win,
        fun y hy => by rw [validKmerPacks_zero_all win y hy]⟩

lemma extractWindows_length (seq : List Nat) (p : MinimizerParams) :
    ∀ fuel i, (extractWindows seq p fuel i).length ≤ fuel := by
  intro fuel
  induction fuel with
  | zero => intro i; rw [extractWindows]; exact Nat.le_refl 0
  | succ n ih =>
    intro i
    rw [extractWindows]
    dsimp only
    by_cases h1 : seq.length ≤ i * p.window_len
    · rw [if_pos h1]; exact Nat.zero_le _
    · rw [if_neg h1]
      by_cases h2 : min (i * p.window_len + p.window_len) seq.length - i * p.window_len <
          p.kmer_len
      · rw [if_pos h2]; exact Nat.zero_le _
      · rw [if_neg h2]
        rw [List.length_append]
        have hemit : List.length (if windowMin ((seq.drop (i * p.window_len)).take p.window_len) p.kmer_len = U64MAX then ([] : List Nat) else [windowMin ((seq.drop (i * p.window_len)).take p.window_len) p.kmer_len]) ≤ 1 := by
          by_cases hmh : windowMin ((seq.drop (i * p.window_len)).take p.window_len)
              p.kmer_len = U64MAX
          · rw [if_pos hmh]; exact Nat.zero_le 1
          · rw [if_neg hmh]; exact Nat.le_refl 1
        have := ih (i + 1)
        omega

lemma extractWindows_mem (seq : List Nat) (p : MinimizerParams) :
    ∀ fuel i x, x ∈ extractWindows seq p fuel i →
      ∃ j, i ≤ j ∧ j < i + fuel ∧ x ≠ U64MAX ∧
        x = windowMin ((seq.drop (j * p.window_len)).take p.window_len) p.kmer_len := by
  intro fuel
  induction fuel with
  | zero =>
    intro i x hx
    rw [extractWindows] at hx
    exact absurd hx (List.not_mem_nil x)
  | succ n ih =>
    intro i x hx
    rw [extractWindows] at hx
    dsimp only at hx
    by_cases h1 : seq.length ≤ i * p.window_len
    · rw [if_pos h1] at hx
      exact absurd hx (List.not_mem_nil x)
    · rw [if_neg h1] at hx
      by_cases h2 : min (i * p.window_len + p.window_len) seq.length - i * p.window_len <
          p.kmer_len
      · rw [if_pos h2] at hx
        exact absurd hx (List.not_mem_nil x)
      · rw [if_neg h2] at hx
        rcases List.mem_append.mp hx with hx1 | hx2
        · by_cases hmh : windowMin ((seq.drop (i * p.window_len)).take p.window_len)
              p.kmer_len = U64MAX
          · rw [if_pos hmh] at hx1
            exact absurd hx1 (List.not_mem_nil x)
          · rw [if_neg hmh] at hx1
            have hxe : x = windowMin ((seq.drop (i * p.window_len)).take p.window_len)
                p.kmer_len := List.mem_singleton.mp hx1
            exact ⟨i, Nat.le_refl i, by omega, hxe ▸ hmh, hxe⟩
        · obtain ⟨j, hj1, hj2, hj3, hj4⟩ := ih (i + 1) x hx2
          exact ⟨j, by omega, by omega, hj3, hj4⟩

/-- Claim C6: for `kmer_len ≤ 32` and `kmer_len ≤ window_len`,
`extract_minimizers` returns at most `num_windows` hashes; it returns `[]`
whenever the sequence is shorter than `kmer_len`; and every returned hash is
the numerical minimum of the 2-bit packings of exactly those k-mers of its
window that consist entirely of consecutive valid bases (a k-mer spanning
an invalid byte contributes no candidate). -/
theorem C6_extract_minimizers_spec (s : List Nat) (p : MinimizerParams)
    (hk32 : p.kmer_len ≤ 32) (hkw : p.kmer_len ≤ p.window_len) :
    (extract_minimizers s p).length ≤ p.num_windows ∧
    (s.length < p.kmer_len → extract_minimizers s p = []) ∧
    (∀ x ∈ extract_minimizers s p, ∃ i, i < p.num_windows ∧
      x ∈ validKmerPacks ((s.drop (i * p.window_len)).take p.window_len) p.kmer_len ∧
      ∀ y ∈ validKmerPacks ((s.drop (i * p.window_len)).take p.window_len) p.kmer_len,
        x ≤ y) := by
  refine ⟨?_, ?_, ?_⟩
  · unfold extract_minimizers
    by_cases hshort : s.length < p.kmer_len
    · rw [if_pos hshort]
      exact Nat.zero_le _
    · rw [if_neg hshort]
      exact extractWindows_length s p p.num_windows 0
  · intro hshort
    unfold extract_minimizers
    rw [if_pos hshort]
  · intro x hx
    unfold extract_minimizers at hx
    by_cases hshort : s.length < p.kmer_len
    · rw [if_pos hshort] at hx
      exact absurd hx (List.not_mem_nil x)
    · rw [if_neg hshort] at hx
      obtain ⟨j, _, hj2, hj3, hj4⟩ := extractWindows_mem s p p.num_windows 0 x hx
      have hspec := windowMin_spec ((s.drop (j * p.window_len)).take p.window_len)
        p.kmer_len (hj4 ▸ hj3)
      exact ⟨j, by omega, hj4 ▸ hspec.1, fun y hy => hj4 ▸ hspec.2 y hy⟩

/-- Witness for C6 at a concrete sequence (scenario with an embedded
invalid byte). -/
theorem C6_extract_minimizers_spec_witness :
    (2 ≤ 32 ∧ 2 ≤ 5) ∧
      ((extract_minimizers [65, 65, 78, 65, 65] ⟨2, 5, 1⟩).length ≤ 1 ∧
       ([65, 65, 78, 65, 65].length < 2 → extract_minimizers [65, 65, 78, 65, 65] ⟨2, 5, 1⟩ = []) ∧
       (∀ x ∈ extract_minimizers [65, 65, 78, 65, 65] ⟨2, 5, 1⟩, ∃ i, i < 1 ∧
         x ∈ validKmerPacks (([65, 65, 78, 65, 65].drop (i * 5)).take 5) 2 ∧
         ∀ y ∈ validKmerPacks (([65, 65, 78, 65, 65].drop (i * 5)).take 5) 2, x ≤ y)) :=
  ⟨⟨by omega, by omega⟩,
    C6_extract_minimizers_spec [65, 65, 78, 65, 65] ⟨2, 5, 1⟩ (by decide) (by decide)⟩

/-! ## Quality scoring (`ReadPair::mean_quality` and the score in
`process_read`) -/

/-- `mean_quality` from the source: sum `(b - 33)` over both quality
strings and divide by the total quality length, guarding a zero-length
denominator.  The `u8` subtraction `b - 33` is Rust release-mode wrapping
arithmetic, embedded as `(b + 256 - 33) % 256` (the byte values satisfy
`b < 256`). -/
def mean_quality (rp : ReadPair) : ℚ :=
  let total : Nat := (((rp.fwd_qual ++ rp.rev_qual).map fun b => (b + 256 - 33) % 256)).sum
  let count : ℚ := ((rp.fwd_qual.length + rp.rev_qual.length : Nat) : ℚ)
  if count = 0 then 0
  else (total : ℚ) / count

/-- The scalar promotion score computed in `process_read`:
`score = mean_q * 1000.0 + length`. -/
def read_score (rp : ReadPair) : ℚ :=
  mean_quality rp * 1000 + ((rp.fwd_seq.length + rp.rev_seq.length : Nat) : ℚ)

/-- The per-byte `b - 33` subtraction with the `u8` underflow made
explicit: `none` models the debug-mode panic (underflow) when a quality
byte is below 33. -/
def checked_sub33 (b : Nat) : Option Nat :=
  if b < 33 then none else some (b - 33)

/-- Fallible traversal of a quality string under `checked_sub33`. -/
def checked_quals : List Nat → Option (List Nat)
  | [] => some []
  | b :: rest =>
    match checked_sub33 b with
    | none => none
    | some v =>
      match checked_quals rest with
      | none => none
      | some vs => some (v :: vs)

/-- `mean_quality` with the underflow of the per-byte subtraction made
observable: `none` exactly when some quality byte is below 33. -/
def mean_quality_checked (rp : ReadPair) : Option ℚ :=
  match checked_quals (rp.fwd_qual ++ rp.rev_qual) with
  | none => none
  | some vals =>
    some (if ((rp.fwd_qual.length + rp.rev_qual.length : Nat) : ℚ) = 0 then 0
      else ((vals.sum : Nat) : ℚ) / ((rp.fwd_qual.length + rp.rev_qual.length : Nat) : ℚ))

lemma checked_quals_isSome_iff (l : List Nat) :
    (checked_quals l).isSome = true ↔ ∀ b ∈ l, 33 ≤ b := by
  induction l with
  | nil => simp [checked_quals]
  | cons b rest ih =>
    rw [checked_quals]
    by_cases hb : b < 33
    · rw [show checked_sub33 b = none from if_pos hb]
      simp only [Option.isSome_none]
      constructor
      · intro h; exact absurd h (by simp)
      · intro h
        exact absurd (h b (List.mem_cons_self b rest)) (by omega)
    · rw [show checked_sub33 b = some (b - 33) from if_neg hb]
      cases hrest : checked_quals rest with
      | none =>
        simp only [Option.isSome_none]
        constructor
        · intro h; exact absurd h (by simp)
        · intro h
          have : (checked_quals rest).isSome = true := by
            rw [ih]
            intro c hc
            exact h c (List.mem_cons_of_mem b hc)
          rw [hrest] at this
          exact absurd this (by simp)
      | some vs =>
        simp only [Option.isSome_some, true_iff]
        intro c hc
        rcases List.mem_cons.mp hc with h | h
        · omega
        · have : (checked_quals rest).isSome = true := by rw [hrest]; rfl
          rw [ih] at this
          exact this c h

/-- Claim C9: for a read pair whose sequences and quality strings are all
empty, the quality computation is total — `mean_quality` takes the guarded
zero-denominator branch and returns 0, and the score computed in
`process_read` is 0. -/
theorem C9_empty_read_pair_score_zero (id : String) :
    mean_quality ⟨id, [], [], [], []⟩ = 0 ∧ read_score ⟨id, [], [], [], []⟩ = 0 := by
  constructor
  · unfold mean_quality
    norm_num
  · unfold read_score mean_quality
    norm_num

/-- Claim C10: `mean_quality` subtracts 33 from every quality byte without
a guard, so the computation is underflow-free precisely when every quality
byte is at least 33 (valid Phred+33); a quality byte below 33 (here, 32)
makes the per-byte subtraction underflow rather than being rejected. -/
theorem C10_mean_quality_phred33_precondition :
    (∀ rp : ReadPair,
      (mean_quality_checked rp).isSome = true ↔
        ∀ b ∈ rp.fwd_qual ++ rp.rev_qual, 33 ≤ b) ∧
    mean_quality_checked ⟨"bad", [], [], [32], []⟩ = none := by
  constructor
  · intro rp
    unfold mean_quality_checked
    cases hq : checked_quals (rp.fwd_qual ++ rp.rev_qual) with
    | none =>
      simp only [Option.isSome_none]
      rw [← checked_quals_isSome_iff, hq]
      simp
    | some vals =>
      simp only [Option.isSome_some, true_iff]
      rw [← checked_quals_isSome_iff, hq]
      simp
  · decide

/-- Witness for C10: a valid-Phred pair is underflow-free; the bad pair
underflows. -/
theorem C10_mean_quality_phred33_witness :
    (mean_quality_checked ⟨"ok", [], [], [33, 70], [40]⟩).isSome = true ∧
      mean_quality_checked ⟨"bad", [], [], [32], []⟩ = none :=
  ⟨(C10_mean_quality_phred33_precondition.1 ⟨"ok", [], [], [33, 70], [40]⟩).mpr
      (by decide),
    C10_mean_quality_phred33_precondition.2⟩

/-! ## The deduplication context (`DedupContext` and its methods) -/

/-- Association-list lookup modelling the `id_to_index` hash map. -/
def assocLookup : List (String × Nat) → String → Option Nat
  | [], _ => none
  | p :: rest, id => if p.1 = id then some p.2 else assocLookup rest id

/-- `IDRegistry` from the source: intern table from read-id strings to
dense indices, plus the reverse table. -/
structure IDRegistry where
  id_to_index : List (String × Nat)
  index_to_id : List String

/-- `IDRegistry::get_or_create`: return the existing index or assign the
next dense index, updating both tables. -/
def IDRegistry.get_or_create (reg : IDRegistry) (id : String) : Nat × IDRegistry :=
  match assocLookup reg.id_to_index id with
  | some idx => (idx, reg)
  | none =>
    (reg.index_to_id.length,
      ⟨(id, reg.index_to_id.length) :: reg.id_to_index, reg.index_to_id ++ [id]⟩)

/-- `IDRegistry::get_id`; an out-of-range index (a Rust panic, unreachable
from the public methods) defaults to the empty string. -/
def IDRegistry.get_id (reg : IDRegistry) (idx : Nat) : String :=
  reg.index_to_id.getD idx ""

/-- Cluster-stats map lookup (`FxHashMap::get`). -/
def clustersGet : List (Nat × ClusterStats) → Nat → Option ClusterStats
  | [], _ => none
  | p :: rest, k => if p.1 = k then some p.2 else clustersGet rest k

/-- Cluster-stats map insert (`FxHashMap::insert`): replace an existing
binding or append a new one. -/
def clustersInsert (cs : List (Nat × ClusterStats)) (k : Nat) (v : ClusterStats) :
    List (Nat × ClusterStats) :=
  if (clustersGet cs k).isSome then cs.map fun p => if p.1 = k then (k, v) else p
  else cs ++ [(k, v)]

/-- Update through `FxHashMap::get_mut` (no effect when the key is
absent). -/
def clustersModify (cs : List (Nat × ClusterStats)) (k : Nat)
    (f : ClusterStats → ClusterStats) : List (Nat × ClusterStats) :=
  cs.map fun p => if p.1 = k then (p.1, f p.2) else p

/-- `Vec::resize(idx + 1, 0)` (when needed) followed by
`results[idx] = v`. -/
def setResult (rs : List Nat) (idx v : Nat) : List Nat :=
  (if rs.length ≤ idx then rs ++ List.replicate (idx + 1 - rs.length) 0 else rs).set idx v

/-- `Vec::resize(idx + 1, None)` (when needed) followed by
`exemplar_store[idx] = Some ex`. -/
def storeSet (st : List (Option StoredExemplar)) (idx : Nat) (ex : StoredExemplar) :
    List (Option StoredExemplar) :=
  (if st.length ≤ idx then st ++ List.replicate (idx + 1 - st.length) none else st).set
    idx (some ex)

/-- `DedupContext` from the source.  The minimizer buckets are embedded as
a total function from 64-bit hash to its bucket (empty by default). -/
structure DedupContext where
  dedup_params : DedupParams
  minimizer_params : MinimizerParams
  id_registry : IDRegistry
  buckets : Nat → List Nat
  exemplar_store : List (Option StoredExemplar)
  results : List Nat
  clusters : List (Nat × ClusterStats)
  finalized : Bool

/-- `DedupContext::new`. -/
def DedupContext.new (dp : DedupParams) (mp : MinimizerParams) : DedupContext :=
  ⟨dp, mp, ⟨[], []⟩, fun _ => [], [], [], [], false⟩

/-- The inner candidate loop of `process_read` over one bucket: skip
already-checked candidates, fetch each exemplar
(`exemplar_store.get(c).and_then(...)`), stop at the first similar one.
Returns the match (if any) together with the grown checked-set. -/
def bucketScan (ctx : DedupContext) (rp : ReadPair) :
    List Nat → List Nat → Option Nat × List Nat
  | checked, [] => (none, checked)
  | checked, c :: rest =>
    if c ∈ checked then bucketScan ctx rp checked rest
    else
      match (ctx.exemplar_store.get? c).join with
      | some cand =>
        if reads_are_similar rp cand ctx.dedup_params then (some c, c :: checked)
        else bucketScan ctx rp (c :: checked) rest
      | none => bucketScan ctx rp (c :: checked) rest

/-- The outer probe loop of `process_read` over the read's minimizers
(labelled `'outer` in the source). -/
def findMatch (ctx : DedupContext) (rp : ReadPair) :
    List Nat → List Nat → Option Nat
  | _, [] => none
  | checked, min_hash :: rest_mins =>
    match bucketScan ctx rp checked (ctx.buckets min_hash) with
    | (some idx, _) => some idx
    | (none, checked2) => findMatch ctx rp checked2 rest_mins

/-- The concatenated minimizers of a read pair, forward then reverse
(`all_mins` in `process_read`). -/
def read_minimizers (ctx : DedupContext) (rp : ReadPair) : List Nat :=
  extract_minimizers rp.fwd_seq ctx.minimizer_params ++
    extract_minimizers rp.rev_seq ctx.minimizer_params

/-- `DedupContext::process_read`, returning the updated context, the
cluster leader index assigned to this read, and whether the read matched an
existing cluster (`true`) or opened a new one (`false`). -/
def process_read_core (ctx : DedupContext) (rp : ReadPair) :
    DedupContext × Nat × Bool :=
  let rc := ctx.id_registry.get_or_create rp.read_id
  let read_idx := rc.1
  let reg2 := rc.2
  let score := read_score rp
  let all_mins := read_minimizers ctx rp
  match findMatch ctx rp [] all_mins with
  | some cluster_idx =>
    ({ ctx with
        id_registry := reg2,
        clusters := clustersModify ctx.clusters cluster_idx fun cluster =>
          ⟨if cluster.best_score < score then read_idx else cluster.best_read_idx,
            if cluster.best_score < score then score else cluster.best_score,
            cluster.count + 1⟩,
        results := setResult ctx.results read_idx cluster_idx },
      cluster_idx, true)
  | none =>
    ({ ctx with
        id_registry := reg2,
        clusters := clustersInsert ctx.clusters read_idx ⟨read_idx, score, 1⟩,
        exemplar_store := storeSet ctx.exemplar_store read_idx ⟨rp.fwd_seq, rp.rev_seq⟩,
        buckets := all_mins.foldl
          (fun bk mh => fun h2 => if h2 = mh then bk h2 ++ [read_idx] else bk h2)
          ctx.buckets,
        results := setResult ctx.results read_idx read_idx },
      read_idx, false)

/-- `process_read` as the public method: returns the cluster leader's id. -/
def process_read (ctx : DedupContext) (rp : ReadPair) : DedupContext × String :=
  let r := process_read_core ctx rp
  (r.1, r.1.id_registry.get_id r.2.1)

/-- `DedupContext::finalize`: rewrite every assignment entry to its
cluster's best member, then release buckets and exemplar store. -/
def finalize (ctx : DedupContext) : DedupContext :=
  { ctx with
    results := ctx.results.map fun cluster_leader_idx =>
      match clustersGet ctx.clusters cluster_leader_idx with
      | some cluster => cluster.best_read_idx
      | none => cluster_leader_idx,
    finalized := true,
    buckets := fun _ => [],
    exemplar_store := [] }

/-- `DedupContext::get_cluster_id`. -/
def get_cluster_id (ctx : DedupContext) (read_id : String) : String :=
  match assocLookup ctx.id_registry.id_to_index read_id with
  | some read_idx =>
    match ctx.results.get? read_idx with
    | some cluster_idx => ctx.id_registry.get_id cluster_idx
    | none => read_id
  | none => read_id

/-- Feeding a stream of reads into the context, one `process_read` at a
time. -/
def processAll (ctx : DedupContext) (rs : List ReadPair) : DedupContext :=
  rs.foldl (fun c rp => (process_read c rp).1) ctx

lemma set_append_singleton (rs : List Nat) (a v : Nat) :
    (rs ++ [a]).set rs.length v = rs ++ [v] := by
  induction rs with
  | nil => rfl
  | cons x xs ih =>
    have hstep : (x :: (xs ++ [a])).set (xs.length + 1) v =
        x :: ((xs ++ [a]).set xs.length v) := rfl
    rw [List.cons_append, List.length_cons, hstep, ih, List.cons_append]

lemma setResult_of_length (rs : List Nat) (v : Nat) :
    setResult rs rs.length v = rs ++ [v] := by
  unfold setResult
  rw [if_pos (le_refl _)]
  rw [show rs.length + 1 - rs.length = 1 by omega]
  rw [List.replicate_one]
  exact set_append_singleton rs 0 v

lemma getD_append_left (rs tl : List Nat) (r d : Nat) (h : r < rs.length) :
    (rs ++ tl).getD r d = rs.getD r d :=
  List.getD_append rs tl d r h

lemma getD_append_length (rs : List Nat) (v d : Nat) :
    (rs ++ [v]).getD rs.length d = v := by
  induction rs with
  | nil => rfl
  | cons x xs ih =>
    rw [List.cons_append, List.length_cons]
    exact ih

lemma storeSet_join_isSome (st : List (Option StoredExemplar)) (idx : Nat)
    (ex : StoredExemplar) (c : Nat)
    (h : (((storeSet st idx ex).get? c).join).isSome = true) :
    c = idx ∨ (((st.get? c).join).isSome = true) := by
  by_cases hc : c = idx
  · exact Or.inl hc
  · right
    unfold storeSet at h
    rw [List.get?_eq_getElem?] at h
    rw [List.getElem?_set_ne (fun he => hc he.symm)] at h
    by_cases hlen : st.length ≤ idx
    · rw [if_pos hlen] at h
      by_cases hcs : c < st.length
      · rw [List.getElem?_append_left hcs] at h
        rw [List.get?_eq_getElem?]
        exact h
      · rw [List.getElem?_append_right (by omega)] at h
        rw [List.getElem?_replicate] at h
        by_cases hrep : c - st.length < idx + 1 - st.length
        · rw [if_pos hrep] at h
          exact absurd h (by simp)
        · rw [if_neg hrep] at h
          exact absurd h (by simp)
    · rw [if_neg hlen] at h
      rw [List.get?_eq_getElem?]
      exact h

lemma clustersGet_modify (cs : List (Nat × ClusterStats)) (k : Nat)
    (f : ClusterStats → ClusterStats) (j : Nat) :
    clustersGet (clustersModify cs k f) j =
      if j = k then Option.map f (clustersGet cs j) else clustersGet cs j := by
  induction cs with
  | nil =>
    unfold clustersModify
    by_cases hj : j = k <;> simp [clustersGet, hj]
  | cons p rest ih =>
    unfold clustersModify at ih ⊢
    rw [List.map_cons]
    by_cases hpk : p.1 = k
    · rw [if_pos hpk]
      by_cases hj : j = k
      · rw [clustersGet, if_pos (by omega), if_pos hj, clustersGet, if_pos (by omega)]
        rfl
      · rw [clustersGet, if_neg (by omega), if_neg hj, clustersGet, if_neg (by omega)]
        have := ih
        rw [if_neg hj] at this
        exact this
    · rw [if_neg hpk]
      by_cases hpj : p.1 = j
      · rw [clustersGet, if_pos hpj, if_neg (by omega), clustersGet, if_pos hpj]
      · rw [clustersGet, if_neg hpj, clustersGet, if_neg hpj]
        exact ih

lemma clustersGet_map_replace (cs : List (Nat × ClusterStats)) (k : Nat)
    (v : ClusterStats) (j : Nat) :
    clustersGet (cs.map fun p => if p.1 = k then (k, v) else p) j =
      if j = k then Option.map (fun _ => v) (clustersGet cs k)
      else clustersGet cs j := by
  induction cs with
  | nil => by_cases hj : j = k <;> simp [clustersGet, hj]
  | cons p rest ih =>
    rw [List.map_cons]
    by_cases hpk : p.1 = k
    · rw [if_pos hpk]
      by_cases hj : j = k
      · rw [clustersGet, if_pos (by omega), if_pos hj, clustersGet, if_pos hpk]
        rfl
      · rw [clustersGet, if_neg (by omega), if_neg hj, clustersGet, if_neg (by omega)]
        have h2 := ih
        rw [if_neg hj] at h2
        exact h2
    · rw [if_neg hpk]
      by_cases hpj : p.1 = j
      · have hj : ¬ j = k := by omega
        rw [clustersGet, if_pos hpj, if_neg hj, clustersGet, if_pos hpj]
      · rw [clustersGet, if_neg hpj]
        by_cases hj : j = k
        · rw [if_pos hj]
          have h2 := ih
          rw [if_pos hj] at h2
          rw [h2, clustersGet, if_neg hpk]
        · rw [if_neg hj]
          have h2 := ih
          rw [if_neg hj] at h2
          rw [h2, clustersGet, if_neg hpj]

lemma clustersGet_append_singleton (cs : List (Nat × ClusterStats)) (k : Nat)
    (v : ClusterStats) (j : Nat) :
    clustersGet (cs ++ [(k, v)]) j =
      match clustersGet cs j with
      | some s => some s
      | none => if k = j then some v else none := by
  induction cs with
  | nil => rfl
  | cons p rest ih =>
    rw [List.cons_append]
    by_cases hpj : p.1 = j
    · rw [clustersGet, if_pos hpj, clustersGet, if_pos hpj]
    · rw [clustersGet, if_neg hpj, clustersGet, if_neg hpj]
      exact ih

lemma clustersGet_insert (cs : List (Nat × ClusterStats)) (k : Nat)
    (v : ClusterStats) (j : Nat) :
    clustersGet (clustersInsert cs k v) j =
      if j = k then some v else clustersGet cs j := by
  unfold clustersInsert
  by_cases hmem : (clustersGet cs k).isSome = true
  · rw [if_pos hmem, clustersGet_map_replace]
    by_cases hj : j = k
    · rw [if_pos hj, if_pos hj]
      cases hk : clustersGet cs k with
      | none => rw [hk] at hmem; exact absurd hmem (by simp)
      | some s => rfl
    · rw [if_neg hj, if_neg hj]
  · rw [if_neg hmem, clustersGet_append_singleton]
    by_cases hj : j = k
    · subst hj
      cases hk : clustersGet cs j with
      | none => rw [if_pos rfl]
      | some s => rw [hk] at hmem; exact absurd (by simp) hmem
    · cases hk : clustersGet cs j with
      | none => rw [if_neg (by omega), if_neg hj]
      | some s => rw [if_neg hj]

lemma clustersModify_keys (cs : List (Nat × ClusterStats)) (k : Nat)
    (f : ClusterStats → ClusterStats) :
    (clustersModify cs k f).map Prod.fst = cs.map Prod.fst := by
  unfold clustersModify
  rw [List.map_map]
  apply List.map_congr_left
  intro p _
  by_cases hpk : p.1 = k
  · simp [hpk]
  · simp [hpk]

lemma clustersInsert_keys_of_isSome (cs : List (Nat × ClusterStats)) (k : Nat)
    (v : ClusterStats) (h : (clustersGet cs k).isSome = true) :
    (clustersInsert cs k v).map Prod.fst = cs.map Prod.fst := by
  unfold clustersInsert
  rw [if_pos h, List.map_map]
  apply List.map_congr_left
  intro p _
  by_cases hpk : p.1 = k
  · simp [hpk]
  · simp [hpk]

lemma clustersInsert_keys_of_none (cs : List (Nat × ClusterStats)) (k : Nat)
    (v : ClusterStats) (h : ¬ (clustersGet cs k).isSome = true) :
    (clustersInsert cs k v).map Prod.fst = cs.map Prod.fst ++ [k] := by
  unfold clustersInsert
  rw [if_neg h, List.map_append]
  rfl

lemma clustersGet_isSome_of_mem (cs : List (Nat × ClusterStats)) (p : Nat × ClusterStats)
    (hp : p ∈ cs) : (clustersGet cs p.1).isSome = true := by
  induction cs with
  | nil => exact absurd hp (List.not_mem_nil p)
  | cons q rest ih =>
    rcases List.mem_cons.mp hp with h | h
    · subst h
      rw [clustersGet, if_pos rfl]
      rfl
    · by_cases hq : q.1 = p.1
      · rw [clustersGet, if_pos hq]; rfl
      · rw [clustersGet, if_neg hq]
        exact ih h

lemma clustersGet_mem_of_isSome (cs : List (Nat × ClusterStats)) (k : Nat)
    (st : ClusterStats) (h : clustersGet cs k = some st) : (k, st) ∈ cs := by
  induction cs with
  | nil => rw [clustersGet] at h; exact absurd h (by simp)
  | cons q rest ih =>
    rw [clustersGet] at h
    by_cases hq : q.1 = k
    · rw [if_pos hq] at h
      have : q = (k, st) := by
        have := Option.some.inj h
        cases q
        simp at hq this
        rw [hq, this]
      rw [← this]
      exact List.mem_cons_self q rest
    · rw [if_neg hq] at h
      exact List.mem_cons_of_mem q (ih h)

lemma clustersGet_of_mem_nodup (cs : List (Nat × ClusterStats)) (k : Nat)
    (st : ClusterStats) (hnd : (cs.map Prod.fst).Nodup) (hmem : (k, st) ∈ cs) :
    clustersGet cs k = some st := by
  induction cs with
  | nil => exact absurd hmem (List.not_mem_nil _)
  | cons q rest ih =>
    rw [List.map_cons, List.nodup_cons] at hnd
    rcases List.mem_cons.mp hmem with h | h
    · rw [← h, clustersGet, if_pos rfl]
    · have hq : q.1 ≠ k := by
        intro he
        apply hnd.1
        rw [he]
        exact List.mem_map_of_mem Prod.fst h
      rw [clustersGet, if_neg hq]
      exact ih hnd.2 h

lemma bucketScan_some_store (ctx : DedupContext) (rp : ReadPair) :
    ∀ cands checked c checked2,
      bucketScan ctx rp checked cands = (some c, checked2) →
        ((ctx.exemplar_store.get? c).join).isSome = true := by
  intro cands
  induction cands with
  | nil =>
    intro checked c checked2 h
    rw [bucketScan] at h
    simp at h
  | cons d rest ih =>
    intro checked c checked2 h
    rw [bucketScan] at h
    by_cases hd : d ∈ checked
    · rw [if_pos hd] at h
      exact ih checked c checked2 h
    · rw [if_neg hd] at h
      cases hex : (ctx.exemplar_store.get? d).join with
      | some cand =>
        rw [hex] at h
        dsimp only at h
        by_cases hsim : reads_are_similar rp cand ctx.dedup_params = true
        · rw [if_pos hsim] at h
          have hcd : c = d := by
            have := congrArg Prod.fst h
            simpa using this.symm
          rw [hcd, hex]
          rfl
        · rw [if_neg hsim] at h
          exact ih (d :: checked) c checked2 h
      | none =>
        rw [hex] at h
        dsimp only at h
        exact ih (d :: checked) c checked2 h

lemma findMatch_some_store (ctx : DedupContext) (rp : ReadPair) :
    ∀ mins checked c, findMatch ctx rp checked mins = some c →
      ((ctx.exemplar_store.get? c).join).isSome = true := by
  intro mins
  induction mins with
  | nil =>
    intro checked c h
    rw [findMatch] at h
    exact absurd h (by simp)
  | cons mh rest ih =>
    intro checked c h
    rw [findMatch] at h
    cases hscan : bucketScan ctx rp checked (ctx.buckets mh) with
    | mk fst snd =>
      rw [hscan] at h
      cases fst with
      | some idx =>
        have : idx = c := by simpa using h
        rw [← this]
        exact bucketScan_some_store ctx rp (ctx.buckets mh) checked idx snd hscan
      | none =>
        exact ih snd c h

lemma bucketsAdd_mem (idx : Nat) :
    ∀ (mins : List Nat) (bk : Nat → List Nat) (h i : Nat),
      i ∈ (mins.foldl
        (fun b mh => fun h2 => if h2 = mh then b h2 ++ [idx] else b h2) bk) h →
      i ∈ bk h ∨ i = idx := by
  intro mins
  induction mins with
  | nil => intro bk h i hi; exact Or.inl hi
  | cons m rest ih =>
    intro bk h i hi
    rw [List.foldl_cons] at hi
    rcases ih _ h i hi with hcase | hcase
    · by_cases hm : h = m
      · rw [if_pos hm] at hcase
        rcases List.mem_append.mp hcase with h2 | h2
        · exact Or.inl h2
        · exact Or.inr (List.mem_singleton.mp h2)
      · rw [if_neg hm] at hcase
        exact Or.inl hcase
    · exact Or.inr hcase

/-- The bucket-index invariant: exemplar-store entries and bucket members
are always keys of the cluster-stats map.  Preserved by every
`process_read`, duplicate identifiers included. -/
structure BucketInv (ctx : DedupContext) : Prop where
  store_keys : ∀ c, ((ctx.exemplar_store.get? c).join).isSome = true →
    (clustersGet ctx.clusters c).isSome = true
  buckets_keys : ∀ h i, i ∈ ctx.buckets h →
    (clustersGet ctx.clusters i).isSome = true

/-- The full invariant of contexts reached from a fresh context by reads
with pairwise distinct identifiers. -/
structure CtxInv (ctx : DedupContext) extends BucketInv ctx : Prop where
  res_len : ctx.results.length = ctx.id_registry.index_to_id.length
  res_keys : ∀ r, r < ctx.results.length →
    (clustersGet ctx.clusters (ctx.results.getD r 0)).isSome = true
  keys_lt : ∀ p ∈ ctx.clusters, p.1 < ctx.id_registry.index_to_id.length
  leader_self : ∀ p ∈ ctx.clusters, ctx.results.getD p.1 0 = p.1
  keys_nodup : (ctx.clusters.map Prod.fst).Nodup

lemma get_or_create_fresh (reg : IDRegistry) (id : String)
    (h : assocLookup reg.id_to_index id = none) :
    reg.get_or_create id = (reg.index_to_id.length,
      ⟨(id, reg.index_to_id.length) :: reg.id_to_index, reg.index_to_id ++ [id]⟩) := by
  unfold IDRegistry.get_or_create
  rw [h]

lemma step_bucketInv (ctx : DedupContext) (rp : ReadPair) (h : BucketInv ctx) :
    BucketInv (process_read_core ctx rp).1 := by
  unfold process_read_core
  dsimp only
  cases hm : findMatch ctx rp [] (read_minimizers ctx rp) with
  | some cluster_idx =>
    dsimp only
    constructor
    · intro c hc
      rw [clustersGet_modify]
      by_cases hck : c = cluster_idx
      · rw [if_pos hck]
        have := h.store_keys c hc
        rw [hck] at this ⊢
        cases hg : clustersGet ctx.clusters cluster_idx with
        | none => rw [hg] at this; exact absurd this (by simp)
        | some s => rfl
      · rw [if_neg hck]
        exact h.store_keys c hc
    · intro hh i hi
      rw [clustersGet_modify]
      by_cases hck : i = cluster_idx
      · rw [if_pos hck]
        have := h.buckets_keys hh i hi
        rw [hck] at this ⊢
        cases hg : clustersGet ctx.clusters cluster_idx with
        | none => rw [hg] at this; exact absurd this (by simp)
        | some s => rfl
      · rw [if_neg hck]
        exact h.buckets_keys hh i hi
  | none =>
    dsimp only
    constructor
    · intro c hc
      rw [clustersGet_insert]
      by_cases hck : c = (ctx.id_registry.get_or_create rp.read_id).1
      · rw [if_pos hck]; rfl
      · rw [if_neg hck]
        rcases storeSet_join_isSome ctx.exemplar_store
            (ctx.id_registry.get_or_create rp.read_id).1 ⟨rp.fwd_seq, rp.rev_seq⟩ c hc with
          hcase | hcase
        · exact absurd hcase hck
        · exact h.store_keys c hcase
    · intro hh i hi
      rw [clustersGet_insert]
      by_cases hck : i = (ctx.id_registry.get_or_create rp.read_id).1
      · rw [if_pos hck]; rfl
      · rw [if_neg hck]
        rcases bucketsAdd_mem (ctx.id_registry.get_or_create rp.read_id).1 _ ctx.buckets
            hh i hi with hcase | hcase
        · exact h.buckets_keys hh i hcase
        · exact absurd hcase hck

lemma core_matched (ctx : DedupContext) (rp : ReadPair) (c : Nat)
    (hm : findMatch ctx rp [] (read_minimizers ctx rp) = some c) :
    process_read_core ctx rp =
      ({ ctx with
          id_registry := (ctx.id_registry.get_or_create rp.read_id).2,
          clusters := clustersModify ctx.clusters c fun cluster =>
            ⟨if cluster.best_score < read_score rp then
                (ctx.id_registry.get_or_create rp.read_id).1
              else cluster.best_read_idx,
              if cluster.best_score < read_score rp then read_score rp
              else cluster.best_score,
              cluster.count + 1⟩,
          results := setResult ctx.results (ctx.id_registry.get_or_create rp.read_id).1 c },
        c, true) := by
  unfold process_read_core
  dsimp only
  rw [hm]

lemma core_unmatched (ctx : DedupContext) (rp : ReadPair)
    (hm : findMatch ctx rp [] (read_minimizers ctx rp) = none) :
    process_read_core ctx rp =
      ({ ctx with
          id_registry := (ctx.id_registry.get_or_create rp.read_id).2,
          clusters := clustersInsert ctx.clusters
            (ctx.id_registry.get_or_create rp.read_id).1
            ⟨(ctx.id_registry.get_or_create rp.read_id).1, read_score rp, 1⟩,
          exemplar_store := storeSet ctx.exemplar_store
            (ctx.id_registry.get_or_create rp.read_id).1 ⟨rp.fwd_seq, rp.rev_seq⟩,
          buckets := (read_minimizers ctx rp).foldl
            (fun bk mh => fun h2 => if h2 = mh then
                bk h2 ++ [(ctx.id_registry.get_or_create rp.read_id).1]
              else bk h2) ctx.buckets,
          results := setResult ctx.results (ctx.id_registry.get_or_create rp.read_id).1
            (ctx.id_registry.get_or_create rp.read_id).1 },
        (ctx.id_registry.get_or_create rp.read_id).1, false) := by
  unfold process_read_core
  dsimp only
  rw [hm]

/-- One fresh-id `process_read` step preserves the full invariant; it
interns the id at the next dense index, extends the registry accordingly,
adds only the fresh index to buckets, and leaves buckets unchanged when the
read matched an existing cluster. -/
lemma step_fresh_spec (ctx : DedupContext) (rp : ReadPair)
    (hfresh : assocLookup ctx.id_registry.id_to_index rp.read_id = none)
    (hinv : CtxInv ctx) :
    CtxInv (process_read_core ctx rp).1 ∧
    (process_read_core ctx rp).1.id_registry.index_to_id =
      ctx.id_registry.index_to_id ++ [rp.read_id] ∧
    (process_read_core ctx rp).1.id_registry.id_to_index =
      (rp.read_id, ctx.id_registry.index_to_id.length) :: ctx.id_registry.id_to_index ∧
    (∀ hh i, i ∈ (process_read_core ctx rp).1.buckets hh →
      i ∈ ctx.buckets hh ∨ i = ctx.id_registry.index_to_id.length) ∧
    ((process_read_core ctx rp).2.2 = true →
      (process_read_core ctx rp).1.buckets = ctx.buckets) := by
  have hbinv := step_bucketInv ctx rp hinv.toBucketInv
  have hgc := get_or_create_fresh ctx.id_registry rp.read_id hfresh
  have hreslen : ctx.results.length = ctx.id_registry.index_to_id.length := hinv.res_len
  cases hm : findMatch ctx rp [] (read_minimizers ctx rp) with
  | some c =>
    have hc_store := findMatch_some_store ctx rp (read_minimizers ctx rp) [] c hm
    have hc_key := hinv.store_keys c hc_store
    rw [core_matched ctx rp c hm] at hbinv ⊢
    rw [hgc] at hbinv ⊢
    dsimp only at hbinv ⊢
    have hsetr : setResult ctx.results ctx.id_registry.index_to_id.length c =
        ctx.results ++ [c] := by
      rw [← hreslen]
      exact setResult_of_length ctx.results c
    rw [hsetr] at hbinv ⊢
    refine ⟨?_, rfl, rfl, fun hh i hi => Or.inl hi, fun _ => rfl⟩
    constructor
    case toBucketInv => exact hbinv
    case res_len =>
      dsimp only
      rw [List.length_append, List.length_append, hreslen]
      rfl
    case res_keys =>
      dsimp only
      intro r hr
      rw [List.length_append, List.length_singleton] at hr
      by_cases hrlt : r < ctx.results.length
      · rw [getD_append_left _ _ _ _ hrlt]
        rw [clustersGet_modify]
        by_cases hck : ctx.results.getD r 0 = c
        · rw [if_pos hck, hck]
          have := hinv.res_keys r hrlt
          rw [hck] at this
          cases hg : clustersGet ctx.clusters c with
          | none => rw [hg] at this; exact absurd this (by simp)
          | some s => rfl
        · rw [if_neg hck]
          exact hinv.res_keys r hrlt
      · have hre : r = ctx.results.length := by omega
        rw [hre, getD_append_length]
        rw [clustersGet_modify, if_pos rfl]
        cases hg : clustersGet ctx.clusters c with
        | none => rw [hg] at hc_key; exact absurd hc_key (by simp)
        | some s => rfl
    case keys_lt =>
      dsimp only
      intro p hp
      rw [List.length_append, List.length_singleton]
      have hkey : p.1 ∈ (clustersModify ctx.clusters c _).map Prod.fst :=
        List.mem_map_of_mem Prod.fst hp
      rw [clustersModify_keys] at hkey
      obtain ⟨q, hq, hqk⟩ := List.mem_map.mp hkey
      have := hinv.keys_lt q hq
      omega
    case leader_self =>
      dsimp only
      intro p hp
      have hkey : p.1 ∈ (clustersModify ctx.clusters c _).map Prod.fst :=
        List.mem_map_of_mem Prod.fst hp
      rw [clustersModify_keys] at hkey
      obtain ⟨q, hq, hqk⟩ := List.mem_map.mp hkey
      have hlt : q.1 < ctx.results.length := by
        have := hinv.keys_lt q hq
        omega
      rw [← hqk]
      rw [getD_append_left _ _ _ _ hlt]
      exact hinv.leader_self q hq
    case keys_nodup =>
      dsimp only
      rw [clustersModify_keys]
      exact hinv.keys_nodup
  | none =>
    rw [core_unmatched ctx rp hm] at hbinv ⊢
    rw [hgc] at hbinv ⊢
    dsimp only at hbinv ⊢
    have hnokey : clustersGet ctx.clusters ctx.id_registry.index_to_id.length = none := by
      cases hg : clustersGet ctx.clusters ctx.id_registry.index_to_id.length with
      | none => rfl
      | some s =>
        have hmem := clustersGet_mem_of_isSome ctx.clusters _ s hg
        have := hinv.keys_lt _ hmem
        omega
    have hsetr : setResult ctx.results ctx.id_registry.index_to_id.length
        ctx.id_registry.index_to_id.length =
          ctx.results ++ [ctx.id_registry.index_to_id.length] := by
      rw [← hreslen]
      exact setResult_of_length ctx.results ctx.results.length
    rw [hsetr] at hbinv ⊢
    refine ⟨?_, rfl, rfl, ?_, ?_⟩
    · constructor
      case toBucketInv => exact hbinv
      case res_len =>
        dsimp only
        rw [List.length_append, List.length_append, hreslen]
        rfl
      case res_keys =>
        dsimp only
        intro r hr
        rw [List.length_append, List.length_singleton] at hr
        by_cases hrlt : r < ctx.results.length
        · rw [getD_append_left _ _ _ _ hrlt]
          rw [clustersGet_insert]
          by_cases hck : ctx.results.getD r 0 = ctx.id_registry.index_to_id.length
          · rw [if_pos hck]; rfl
          · rw [if_neg hck]
            exact hinv.res_keys r hrlt
        · have hre : r = ctx.results.length := by omega
          rw [hre, getD_append_length]
          rw [clustersGet_insert, if_pos rfl]
          rfl
      case keys_lt =>
        dsimp only
        intro p hp
        rw [List.length_append, List.length_singleton]
        unfold clustersInsert at hp
        rw [if_neg (by rw [hnokey]; simp)] at hp
        rcases List.mem_append.mp hp with h | h
        · have := hinv.keys_lt p h
          omega
        · have : p = (ctx.id_registry.index_to_id.length,
              ⟨ctx.id_registry.index_to_id.length, read_score rp, 1⟩) :=
            List.mem_singleton.mp h
          rw [this]
          omega
      case leader_self =>
        dsimp only
        intro p hp
        unfold clustersInsert at hp
        rw [if_neg (by rw [hnokey]; simp)] at hp
        rcases List.mem_append.mp hp with h | h
        · have hlt : p.1 < ctx.results.length := by
            have := hinv.keys_lt p h
            omega
          rw [getD_append_left _ _ _ _ hlt]
          exact hinv.leader_self p h
        · have hpe : p = (ctx.id_registry.index_to_id.length,
              ⟨ctx.id_registry.index_to_id.length, read_score rp, 1⟩) :=
            List.mem_singleton.mp h
          rw [hpe]
          dsimp only
          rw [← hreslen, getD_append_length]
      case keys_nodup =>
        dsimp only
        unfold clustersInsert
        rw [if_neg (by rw [hnokey]; simp)]
        rw [List.map_append]
        apply List.Nodup.append hinv.keys_nodup (by simp)
        intro a ha hb
        have hma : a ∈ (ctx.clusters.map Prod.fst) := ha
        obtain ⟨q, hq, hqk⟩ := List.mem_map.mp hma
        have hlt := hinv.keys_lt q hq
        have hae : a = ctx.id_registry.index_to_id.length := by
          simpa using hb
        omega
    · intro hh i hi
      exact bucketsAdd_mem ctx.id_registry.index_to_id.length
        (read_minimizers ctx rp) ctx.buckets hh i hi
    · intro hfalse
      exact absurd hfalse (by simp)

lemma processAll_nil (ctx : DedupContext) : processAll ctx [] = ctx := rfl

lemma processAll_cons (ctx : DedupContext) (rp : ReadPair) (rs : List ReadPair) :
    processAll ctx (rp :: rs) = processAll (process_read_core ctx rp).1 rs := rfl

lemma processAll_append (ctx : DedupContext) (l1 l2 : List ReadPair) :
    processAll ctx (l1 ++ l2) = processAll (processAll ctx l1) l2 :=
  List.foldl_append _ _ l1 l2

/-- Processing a stream of fresh, pairwise-distinct reads preserves the
invariant, appends the ids to the registry in order, keeps absent ids
absent, and never adds a pre-existing absent index to any bucket. -/
lemma processAll_fresh_spec (rs : List ReadPair) : ∀ (ctx : DedupContext),
    CtxInv ctx →
    (rs.map ReadPair.read_id).Nodup →
    (∀ rp ∈ rs, assocLookup ctx.id_registry.id_to_index rp.read_id = none) →
    CtxInv (processAll ctx rs) ∧
    (processAll ctx rs).id_registry.index_to_id =
      ctx.id_registry.index_to_id ++ rs.map ReadPair.read_id ∧
    (∀ id, assocLookup (processAll ctx rs).id_registry.id_to_index id = none ↔
      (assocLookup ctx.id_registry.id_to_index id = none ∧
        id ∉ rs.map ReadPair.read_id)) ∧
    (∀ j, j < ctx.id_registry.index_to_id.length → (∀ hh, j ∉ ctx.buckets hh) →
      ∀ hh, j ∉ (processAll ctx rs).buckets hh) := by
  induction rs with
  | nil =>
    intro ctx hinv _ _
    refine ⟨hinv, by simp [processAll_nil], ?_, ?_⟩
    · intro id
      rw [processAll_nil]
      simp
    · intro j _ hnot hh
      rw [processAll_nil]
      exact hnot hh
  | cons rp rest ih =>
    intro ctx hinv hnodup hfresh
    have hfresh0 : assocLookup ctx.id_registry.id_to_index rp.read_id = none :=
      hfresh rp (List.mem_cons_self rp rest)
    obtain ⟨hinv2, hidx2, hlook2, hbsub, hbmatch⟩ := step_fresh_spec ctx rp hfresh0 hinv
    rw [List.map_cons, List.nodup_cons] at hnodup
    set ctx2 := (process_read_core ctx rp).1 with hctx2
    have hlookstep : ∀ id, rp.read_id ≠ id →
        assocLookup ctx2.id_registry.id_to_index id =
          assocLookup ctx.id_registry.id_to_index id := by
      intro id hne
      rw [hlook2, assocLookup, if_neg hne]
    have hfresh2 : ∀ rq ∈ rest,
        assocLookup ctx2.id_registry.id_to_index rq.read_id = none := by
      intro rq hrq
      have hne : rp.read_id ≠ rq.read_id := by
        intro he
        exact hnodup.1 (he ▸ List.mem_map_of_mem ReadPair.read_id hrq)
      rw [hlookstep rq.read_id hne]
      exact hfresh rq (List.mem_cons_of_mem rp hrq)
    obtain ⟨ihinv, ihidx, ihlook, ihbuck⟩ := ih ctx2 hinv2 hnodup.2 hfresh2
    rw [processAll_cons]
    refine ⟨ihinv, ?_, ?_, ?_⟩
    · rw [ihidx, hidx2, List.map_cons, List.append_assoc]
      rfl
    · intro id
      rw [ihlook id]
      constructor
      · rintro ⟨h1, h2⟩
        by_cases hep : rp.read_id = id
        · rw [hlook2, assocLookup, if_pos hep] at h1
          exact absurd h1 (by simp)
        · rw [hlookstep id hep] at h1
          refine ⟨h1, ?_⟩
          rw [List.map_cons]
          intro hmem
          rcases List.mem_cons.mp hmem with h | h
          · exact hep h.symm
          · exact h2 h
      · rintro ⟨h1, h2⟩
        rw [List.map_cons] at h2
        have hep : rp.read_id ≠ id := by
          intro he
          apply h2
          rw [← he]
          exact List.mem_cons_self _ _
        constructor
        · rw [hlookstep id hep]
          exact h1
        · intro hmem
          exact h2 (List.mem_cons_of_mem _ hmem)
    · intro j hj hnot hh
      apply ihbuck j
      · rw [hidx2, List.length_append]
        simp
        omega
      · intro hh2 hmem
        rcases hbsub hh2 j hmem with h | h
        · exact hnot hh2 h
        · omega

lemma finalize_results_getD (ctx : DedupContext) (r : Nat) (hr : r < ctx.results.length) :
    (finalize ctx).results.getD r 0 =
      match clustersGet ctx.clusters (ctx.results.getD r 0) with
      | some cluster => cluster.best_read_idx
      | none => ctx.results.getD r 0 := by
  unfold finalize
  dsimp only
  rw [List.getD_eq_getElem _ _ (by rw [List.length_map]; exact hr)]
  rw [List.getElem_map]
  rw [List.getD_eq_getElem _ _ hr]

lemma finalize_results_length (ctx : DedupContext) :
    (finalize ctx).results.length = ctx.results.length := by
  unfold finalize
  dsimp only
  exact List.length_map _ _

lemma CtxInv_new (dp : DedupParams) (mp : MinimizerParams) :
    CtxInv (DedupContext.new dp mp) := by
  constructor
  case toBucketInv =>
    constructor
    · intro c hc
      unfold DedupContext.new at hc
      dsimp only at hc
      rw [show (([] : List (Option StoredExemplar)).get? c) = none from rfl] at hc
      exact absurd hc (by simp)
    · intro hh i hi
      exact absurd hi (List.not_mem_nil i)
  case res_len => rfl
  case res_keys => intro r hr; exact absurd hr (by simp [DedupContext.new])
  case keys_lt => intro p hp; exact absurd hp (List.not_mem_nil p)
  case leader_self => intro p hp; exact absurd hp (List.not_mem_nil p)
  case keys_nodup => exact List.nodup_nil

/-- Claim C2: after finalizing a run over reads with distinct identifiers,
every assignment entry equals the best-member index of the cluster its
pre-finalization leader entry points to, and the set of assignment values
equals the set of best-member indices over all clusters. -/
theorem C2_finalize_assignment (dp : DedupParams) (mp : MinimizerParams)
    (rs : List ReadPair) (hids : (rs.map ReadPair.read_id).Nodup) :
    (∀ r, r < (processAll (DedupContext.new dp mp) rs).results.length →
      ∃ st, clustersGet (processAll (DedupContext.new dp mp) rs).clusters
          ((processAll (DedupContext.new dp mp) rs).results.getD r 0) = some st ∧
        (finalize (processAll (DedupContext.new dp mp) rs)).results.getD r 0 =
          st.best_read_idx) ∧
    (∀ v, (∃ r, r < (finalize (processAll (DedupContext.new dp mp) rs)).results.length ∧
        (finalize (processAll (DedupContext.new dp mp) rs)).results.getD r 0 = v) ↔
      (∃ l st, (l, st) ∈ (processAll (DedupContext.new dp mp) rs).clusters ∧
        st.best_read_idx = v)) := by
  have hfresh0 : ∀ rp ∈ rs,
      assocLookup (DedupContext.new dp mp).id_registry.id_to_index rp.read_id = none := by
    intro rp _
    rfl
  obtain ⟨hinv, _, _, _⟩ :=
    processAll_fresh_spec rs (DedupContext.new dp mp) (CtxInv_new dp mp) hids hfresh0
  set ctx := processAll (DedupContext.new dp mp) rs with hctx
  constructor
  · intro r hr
    have hkey := hinv.res_keys r hr
    cases hg : clustersGet ctx.clusters (ctx.results.getD r 0) with
    | none => rw [hg] at hkey; exact absurd hkey (by simp)
    | some st =>
      refine ⟨st, rfl, ?_⟩
      rw [finalize_results_getD ctx r hr, hg]
  · intro v
    constructor
    · rintro ⟨r, hr, hv⟩
      rw [finalize_results_length] at hr
      have hkey := hinv.res_keys r hr
      cases hg : clustersGet ctx.clusters (ctx.results.getD r 0) with
      | none => rw [hg] at hkey; exact absurd hkey (by simp)
      | some st =>
        refine ⟨ctx.results.getD r 0, st, clustersGet_mem_of_isSome _ _ _ hg, ?_⟩
        rw [finalize_results_getD ctx r hr, hg] at hv
        exact hv
    · rintro ⟨l, st, hmem, hbest⟩
      have hget : clustersGet ctx.clusters l = some st :=
        clustersGet_of_mem_nodup ctx.clusters l st hinv.keys_nodup hmem
      have hllt : l < ctx.id_registry.index_to_id.length := hinv.keys_lt (l, st) hmem
      have hlt : l < ctx.results.length := by
        have h2 := hinv.res_len
        omega
      have hself : ctx.results.getD l 0 = l := hinv.leader_self (l, st) hmem
      refine ⟨l, ?_, ?_⟩
      · rw [finalize_results_length]
        exact hlt
      · rw [finalize_results_getD ctx l hlt, hself, hget]
        exact hbest

/-- Witness for C2 on a concrete two-read input. -/
theorem C2_finalize_assignment_witness :
    (([⟨"a", [], [], [], []⟩, ⟨"b", [], [], [], []⟩] : List ReadPair).map
      ReadPair.read_id).Nodup ∧
    ((∀ r, r < (processAll (DedupContext.new ⟨0, 0⟩ ⟨1, 1, 1⟩)
          [⟨"a", [], [], [], []⟩, ⟨"b", [], [], [], []⟩]).results.length →
        ∃ st, clustersGet (processAll (DedupContext.new ⟨0, 0⟩ ⟨1, 1, 1⟩)
            [⟨"a", [], [], [], []⟩, ⟨"b", [], [], [], []⟩]).clusters
            ((processAll (DedupContext.new ⟨0, 0⟩ ⟨1, 1, 1⟩)
              [⟨"a", [], [], [], []⟩, ⟨"b", [], [], [], []⟩]).results.getD r 0) = some st ∧
          (finalize (processAll (DedupContext.new ⟨0, 0⟩ ⟨1, 1, 1⟩)
            [⟨"a", [], [], [], []⟩, ⟨"b", [], [], [], []⟩])).results.getD r 0 =
            st.best_read_idx) ∧
      (∀ v, (∃ r, r < (finalize (processAll (DedupContext.new ⟨0, 0⟩ ⟨1, 1, 1⟩)
            [⟨"a", [], [], [], []⟩, ⟨"b", [], [], [], []⟩])).results.length ∧
          (finalize (processAll (DedupContext.new ⟨0, 0⟩ ⟨1, 1, 1⟩)
            [⟨"a", [], [], [], []⟩, ⟨"b", [], [], [], []⟩])).results.getD r 0 = v) ↔
        (∃ l st, (l, st) ∈ (processAll (DedupContext.new ⟨0, 0⟩ ⟨1, 1, 1⟩)
            [⟨"a", [], [], [], []⟩, ⟨"b", [], [], [], []⟩]).clusters ∧
          st.best_read_idx = v))) :=
  ⟨by decide,
    C2_finalize_assignment ⟨0, 0⟩ ⟨1, 1, 1⟩
      [⟨"a", [], [], [], []⟩, ⟨"b", [], [], [], []⟩] (by decide)⟩

/-- Claim C8: an identifier absent from the ID registry is returned
unchanged by `get_cluster_id`. -/
theorem C8_get_cluster_id_pass_through (ctx : DedupContext) (id : String)
    (h : assocLookup ctx.id_registry.id_to_index id = none) :
    get_cluster_id ctx id = id := by
  unfold get_cluster_id
  rw [h]

/-- Witness for C8: querying a never-processed id on a finalized fresh
context yields the id itself. -/
theorem C8_get_cluster_id_pass_through_witness :
    assocLookup (finalize (DedupContext.new ⟨1, 1/100⟩ ⟨15, 25, 4⟩)).id_registry.id_to_index
        "q" = none ∧
      get_cluster_id (finalize (DedupContext.new ⟨1, 1/100⟩ ⟨15, 25, 4⟩)) "q" = "q" :=
  ⟨rfl, C8_get_cluster_id_pass_through (finalize (DedupContext.new ⟨1, 1/100⟩ ⟨15, 25, 4⟩))
    "q" rfl⟩

lemma processAll_bucketInv (rs : List ReadPair) :
    ∀ ctx, BucketInv ctx → BucketInv (processAll ctx rs) := by
  induction rs with
  | nil => intro ctx h; exact h
  | cons rp rest ih =>
    intro ctx h
    rw [processAll_cons]
    exact ih _ (step_bucketInv ctx rp h)

/-- Counterexample to claim C7 as stated: with a duplicated identifier the
index of a read whose processing matched an existing cluster can already
sit in a bucket.  Three reads (ids "A", "X", "X"): the third read (same id
as the second, hence index 1) matches the cluster of read 0, yet index 1
is in the bucket of minimizer 1 from the second read. -/
theorem C7_counterexample_duplicate_id :
    (process_read_core
        (processAll (DedupContext.new ⟨0, 0⟩ ⟨1, 1, 1⟩)
          [⟨"A", [65], [65], [33], [33]⟩, ⟨"X", [67], [67], [33], [33]⟩])
        ⟨"X", [65], [65], [33], [33]⟩).2.2 = true ∧
    ((processAll (DedupContext.new ⟨0, 0⟩ ⟨1, 1, 1⟩)
        [⟨"A", [65], [65], [33], [33]⟩, ⟨"X", [67], [67], [33], [33]⟩]).id_registry.get_or_create
        "X").1 ∈
      (processAll (DedupContext.new ⟨0, 0⟩ ⟨1, 1, 1⟩)
        [⟨"A", [65], [65], [33], [33]⟩, ⟨"X", [67], [67], [33], [33]⟩,
          ⟨"X", [65], [65], [33], [33]⟩]).buckets 1 := by
  constructor
  · decide
  · decide

/-- Claim C7, amended: in every state reachable by `process_read` calls,
every index in any minimizer bucket is a cluster leader (a key of the
cluster-stats map) — unconditionally; and, provided the processed reads
have pairwise distinct identifiers, the index interned for a read whose
processing matched an existing cluster never appears in any bucket. -/
theorem C7_amended_bucket_invariant (dp : DedupParams) (mp : MinimizerParams)
    (rs : List ReadPair) :
    (∀ hh i, i ∈ (processAll (DedupContext.new dp mp) rs).buckets hh →
      ∃ st, clustersGet (processAll (DedupContext.new dp mp) rs).clusters i = some st) ∧
    ((rs.map ReadPair.read_id).Nodup →
      ∀ j, (hj : j < rs.length) →
        (process_read_core (processAll (DedupContext.new dp mp) (rs.take j))
          rs[j]).2.2 = true →
        ∀ hh, ((processAll (DedupContext.new dp mp) (rs.take j)).id_registry.get_or_create
            rs[j].read_id).1 ∉ (processAll (DedupContext.new dp mp) rs).buckets hh) := by
  constructor
  · intro hh i hi
    have hb := processAll_bucketInv rs (DedupContext.new dp mp) (CtxInv_new dp mp).toBucketInv
    have hkey := hb.buckets_keys hh i hi
    cases hg : clustersGet (processAll (DedupContext.new dp mp) rs).clusters i with
    | none => rw [hg] at hkey; exact absurd hkey (by simp)
    | some st => exact ⟨st, rfl⟩
  · intro hnodup j hj hmatch hh
    have hnodup_take : ((rs.take j).map ReadPair.read_id).Nodup := by
      rw [List.map_take]
      exact List.Nodup.sublist (List.take_sublist j _) hnodup
    have hfresh_take : ∀ rp ∈ rs.take j,
        assocLookup (DedupContext.new dp mp).id_registry.id_to_index rp.read_id = none := by
      intro rp _
      rfl
    obtain ⟨hinvj, hidxj, hlookj, _⟩ :=
      processAll_fresh_spec (rs.take j) (DedupContext.new dp mp) (CtxInv_new dp mp)
        hnodup_take hfresh_take
    set ctxj := processAll (DedupContext.new dp mp) (rs.take j) with hctxj
    have hsplit : (rs.map ReadPair.read_id).take j ++ (rs.map ReadPair.read_id).drop j =
        rs.map ReadPair.read_id := List.take_append_drop _ _
    have hdisj : ((rs.map ReadPair.read_id).take j).Disjoint
        ((rs.map ReadPair.read_id).drop j) := by
      apply List.disjoint_of_nodup_append
      rw [hsplit]
      exact hnodup
    have hjmap : j < (rs.map ReadPair.read_id).length := by
      rw [List.length_map]
      exact hj
    have hmemdrop : rs[j].read_id ∈ (rs.map ReadPair.read_id).drop j := by
      rw [List.drop_eq_getElem_cons hjmap]
      rw [List.getElem_map]
      exact List.mem_cons_self _ _
    have hfreshj : assocLookup ctxj.id_registry.id_to_index rs[j].read_id = none := by
      apply (hlookj rs[j].read_id).mpr
      refine ⟨rfl, ?_⟩
      rw [List.map_take]
      intro hmem
      exact hdisj hmem hmemdrop
    obtain ⟨hinvj1, hidxj1, hlookj1, hbsubj, hbmatchj⟩ :=
      step_fresh_spec ctxj rs[j] hfreshj hinvj
    set n := ctxj.id_registry.index_to_id.length with hn
    have hgc := get_or_create_fresh ctxj.id_registry rs[j].read_id hfreshj
    rw [hgc]
    dsimp only
    set ctxj1 := (process_read_core ctxj rs[j]).1 with hctxj1
    have hstep1 : processAll (DedupContext.new dp mp) (rs.take (j + 1)) = ctxj1 := by
      rw [List.take_succ, List.getElem?_eq_getElem hj]
      rw [show (some rs[j]).toList = [rs[j]] from rfl]
      rw [processAll_append]
      rfl
    have hdecomp : processAll (DedupContext.new dp mp) rs =
        processAll ctxj1 (rs.drop (j + 1)) := by
      conv_lhs => rw [← List.take_append_drop (j + 1) rs]
      rw [processAll_append, hstep1]
    rw [hdecomp]
    have hnodup_drop : ((rs.drop (j + 1)).map ReadPair.read_id).Nodup := by
      rw [List.map_drop]
      exact List.Nodup.sublist (List.drop_sublist _ _) hnodup
    have hfresh_drop : ∀ rq ∈ rs.drop (j + 1),
        assocLookup ctxj1.id_registry.id_to_index rq.read_id = none := by
      intro rq hrq
      have hmem1 : rq.read_id ∈ (rs.map ReadPair.read_id).drop (j + 1) := by
        rw [← List.map_drop]
        exact List.mem_map_of_mem ReadPair.read_id hrq
      have hmemdropj : rq.read_id ∈ (rs.map ReadPair.read_id).drop j := by
        rw [← List.drop_drop] at hmem1
        exact List.mem_of_mem_drop hmem1
      have hne : rs[j].read_id ≠ rq.read_id := by
        intro he
        have hdisj2 : ((rs.map ReadPair.read_id).take (j + 1)).Disjoint
            ((rs.map ReadPair.read_id).drop (j + 1)) := by
          apply List.disjoint_of_nodup_append
          rw [List.take_append_drop]
          exact hnodup
        have hmemtake : rs[j].read_id ∈ (rs.map ReadPair.read_id).take (j + 1) := by
          rw [List.take_succ, List.getElem?_eq_getElem hjmap]
          apply List.mem_append_right
          rw [show ((some (rs.map ReadPair.read_id)[j]).toList) =
            [(rs.map ReadPair.read_id)[j]] from rfl]
          rw [List.getElem_map]
          exact List.mem_singleton.mpr rfl
        exact hdisj2 hmemtake (he ▸ hmem1)
      rw [hlookj1, assocLookup, if_neg hne]
      apply (hlookj rq.read_id).mpr
      refine ⟨rfl, ?_⟩
      rw [List.map_take]
      intro hmem
      exact hdisj hmem hmemdropj
    obtain ⟨_, _, _, ihbuck⟩ :=
      processAll_fresh_spec (rs.drop (j + 1)) ctxj1 hinvj1 hnodup_drop hfresh_drop
    apply ihbuck n
    · rw [hidxj1, List.length_append]
      simp
    · intro hh2 hmem
      rw [hbmatchj hmatch] at hmem
      have hkey := hinvj.buckets_keys hh2 n hmem
      cases hg2 : clustersGet ctxj.clusters n with
      | none => rw [hg2] at hkey; exact absurd hkey (by simp)
      | some st =>
        have hmem2 := clustersGet_mem_of_isSome ctxj.clusters n st hg2
        have hlt : n < n := hinvj.keys_lt (n, st) hmem2
        omega

/-- Witness for the amended C7 on a concrete one-read input. -/
theorem C7_amended_bucket_invariant_witness :
    (([⟨"a", [65], [65], [33], [33]⟩] : List ReadPair).map ReadPair.read_id).Nodup ∧
    ((∀ hh i, i ∈ (processAll (DedupContext.new ⟨0, 0⟩ ⟨1, 1, 1⟩)
          [⟨"a", [65], [65], [33], [33]⟩]).buckets hh →
        ∃ st, clustersGet (processAll (DedupContext.new ⟨0, 0⟩ ⟨1, 1, 1⟩)
          [⟨"a", [65], [65], [33], [33]⟩]).clusters i = some st) ∧
      (∀ j, (hj : j < ([⟨"a", [65], [65], [33], [33]⟩] : List ReadPair).length) →
        (process_read_core (processAll (DedupContext.new ⟨0, 0⟩ ⟨1, 1, 1⟩)
            (([⟨"a", [65], [65], [33], [33]⟩] : List ReadPair).take j))
          ([⟨"a", [65], [65], [33], [33]⟩] : List ReadPair)[j]).2.2 = true →
        ∀ hh, ((processAll (DedupContext.new ⟨0, 0⟩ ⟨1, 1, 1⟩)
            (([⟨"a", [65], [65], [33], [33]⟩] : List ReadPair).take j)).id_registry.get_or_create
              ([⟨"a", [65], [65], [33], [33]⟩] : List ReadPair)[j].read_id).1 ∉
          (processAll (DedupContext.new ⟨0, 0⟩ ⟨1, 1, 1⟩)
            [⟨"a", [65], [65], [33], [33]⟩]).buckets hh)) :=
  ⟨by decide,
    (C7_amended_bucket_invariant ⟨0, 0⟩ ⟨1, 1, 1⟩ [⟨"a", [65], [65], [33], [33]⟩]).1,
    (C7_amended_bucket_invariant ⟨0, 0⟩ ⟨1, 1, 1⟩ [⟨"a", [65], [65], [33], [33]⟩]).2
      (by decide)⟩
